import Mathlib

/-!
# Verification of the KiCad schematic net-overlay engine

Shallow embedding of `kicad_sch_net_overlay.py` (schematic graph extraction
and net-path overlay engine) together with theorems settling the frozen
claims about the natural-language specification of that program.

Modelling conventions:
* Python floats are modelled by exact rationals (`ℚ`); Python's `round`
  (banker's rounding, round-half-to-even) is modelled by `pyRound`.
* Python dicts are modelled by association lists.  Where the source relies
  on "last writer wins" overwriting (the `location_to_node` map) the model
  prepends new bindings and `dictGet` finds the most recent one; where
  the source only ever inserts fresh keys the model appends, preserving
  Python's insertion iteration order.
* Transcendental library calls (`math.atan2`, `math.sin`, `math.cos`,
  `math.asin`, `math.pow(·, 0.7)`) are taken as function parameters of the
  embedded code; theorems hold for every function satisfying the
  documented analytic property actually used (e.g. the range of `atan2`,
  oddness of `asin`).  Concrete witnesses instantiate them with functions
  agreeing with the mathematical ones on the (axis-aligned, exactly
  representable) inputs that occur there.
* Fallible operations (`raise`, `ZeroDivisionError`, `math domain error`,
  `KeyError`) are modelled with `Except String`.
-/

namespace KicadOverlay

/-- Python's built-in `round` to an integer: round half to even
(banker's rounding), exact over the rationals. -/
def pyRound (q : ℚ) : ℤ :=
  let f : ℤ := ⌊q⌋
  let frac : ℚ := q - f
  if frac < 1/2 then f
  else if 1/2 < frac then f + 1
  else if f % 2 = 0 then f else f + 1

/-- Python's `round(x, n)`: round to `n` decimal places (half to even). -/
def pyRoundTo (q : ℚ) (n : ℕ) : ℚ :=
  (pyRound (q * (10 : ℚ) ^ n) : ℚ) / (10 : ℚ) ^ n

/-- `OUTPUT_PRECISION = 5` from the source. -/
def OUTPUT_PRECISION : ℕ := 5

theorem pyRound_intCast (n : ℤ) : pyRound (n : ℚ) = n := by
  unfold pyRound
  norm_num

theorem pyRoundTo_zero (k : ℕ) : pyRoundTo 0 k = 0 := by
  unfold pyRoundTo
  rw [zero_mul, show ((0 : ℚ) = ((0 : ℤ) : ℚ)) by norm_num, pyRound_intCast]
  norm_num

/-- Python dict lookup on an association list. -/
def dictGet {α β : Type} [DecidableEq α] (k : α) : List (α × β) → Option β
  | [] => none
  | (k0, v) :: rest => if k = k0 then some v else dictGet k rest

/-- Python dict assignment `d[k] = v`: updates the value in place if the key
exists (keeping its position in the iteration order), else appends. -/
def dictInsert {α β : Type} [DecidableEq α] (k : α) (v : β) :
    List (α × β) → List (α × β)
  | [] => [(k, v)]
  | (k0, v0) :: rest =>
      if k0 = k then (k0, v) :: rest else (k0, v0) :: dictInsert k v rest

theorem dictGet_insert_self {α β : Type} [DecidableEq α] (k : α) (v : β)
    (m : List (α × β)) : dictGet k (dictInsert k v m) = some v := by
  induction m with
  | nil => simp [dictGet, dictInsert]
  | cons hd tl ih =>
      obtain ⟨k0, v0⟩ := hd
      by_cases h : k0 = k
      · subst h
        simp [dictGet, dictInsert]
      · simp only [dictInsert, if_neg h, dictGet]
        rw [if_neg (fun he => h he.symm)]
        exact ih

theorem dictGet_insert_ne {α β : Type} [DecidableEq α] {k k2 : α} (v : β)
    (m : List (α × β)) (hne : k ≠ k2) :
    dictGet k (dictInsert k2 v m) = dictGet k m := by
  induction m with
  | nil => simp [dictGet, dictInsert, hne]
  | cons hd tl ih =>
      obtain ⟨k0, v0⟩ := hd
      by_cases h : k0 = k2
      · subst h
        simp [dictGet, dictInsert, hne]
      · simp only [dictInsert, if_neg h, dictGet]
        by_cases hk : k = k0
        · simp [hk]
        · simp only [if_neg hk]
          exact ih

-- ======================= C6: coordinate compiler =======================

/-- `rotate_point(x, y, angle_degrees)` from the source, with the cosine and
sine of the angle (in degrees) supplied by the function parameters `cosD`
and `sinD` standing for `math.cos ∘ math.radians` and
`math.sin ∘ math.radians`. -/
def rotate_point (cosD sinD : ℚ → ℚ) (x y angle_degrees : ℚ) : ℚ × ℚ :=
  let cos_a := cosD angle_degrees
  let sin_a := sinD angle_degrees
  (x * cos_a - y * sin_a, x * sin_a + y * cos_a)

/-- A placed symbol instance: `(at x y rotate)` plus its library id. -/
structure InstInfo where
  x : ℚ
  y : ℚ
  rotate : ℚ
  lib_id : String
  deriving DecidableEq, Repr

/-- `compile_pin_locations` from the source: for each placed instance, rotate
each library pin's relative offset by the instance rotation, then translate
by the instance origin, subtracting the rotated y offset (the vertical-axis
sign flip happens at the translation step only).  Instances whose `lib_id`
has no pin data are skipped with a warning. -/
def compile_pin_locations (cosD sinD : ℚ → ℚ)
    (pin_locations_of_lib_symbols : List (String × List (String × ℚ × ℚ)))
    (locations_of_lib_instances : List (String × InstInfo)) :
    List (String × List (String × ℚ × ℚ)) :=
  locations_of_lib_instances.filterMap fun (refdes, info) =>
    match dictGet info.lib_id pin_locations_of_lib_symbols with
    | none => none
    | some pins =>
        some (refdes, pins.map fun (pin_name, rel) =>
          let rotated := rotate_point cosD sinD rel.1 rel.2 info.rotate
          (pin_name, (info.x + rotated.1, info.y - rotated.2)))

-- ======================= C8: arcsine angular offset =======================

/-- Float division as in Python: raises `ZeroDivisionError` on a zero
denominator. -/
def pyDiv (a b : ℚ) : Except String ℚ :=
  if b = 0 then .error "division by zero" else .ok (a / b)

/-- `math.degrees(math.asin x)` as in Python: raises a `math domain error`
when the argument lies outside `[-1, 1]`; `asinD` stands for
`math.degrees ∘ math.asin` on the legal domain. -/
def pyAsinDeg (asinD : ℚ → ℚ) (x : ℚ) : Except String ℚ :=
  if 1 < |x| then .error "math domain error" else .ok (asinD x)

/-- The `delta_angle_from_count` computation of the bundle geometry engine:
`math.degrees(math.asin(center_offset_mm / node_radius_mm))` wrapped in
`try: ... except (ValueError, ZeroDivisionError): delta = 0`. -/
def delta_angle_from_count (asinD : ℚ → ℚ) (center_offset_mm node_radius_mm : ℚ) : ℚ :=
  match (pyDiv center_offset_mm node_radius_mm).bind (pyAsinDeg asinD) with
  | .ok v => v
  | .error _ => 0

end KicadOverlay

namespace KicadOverlay

/-- C6: For every placed instance and every pin of its symbol, the compiled
absolute pin location is the pin's relative offset rotated by the instance
rotation with the standard trigonometric sign, then translated by the
instance origin, with the vertical sign flip applied only at the final
translation step (`absolute_y = instance_y - rotated_y`), never before the
rotation. -/
theorem compile_pin_locations_rotate_then_translate_flip_last
    (cosD sinD : ℚ → ℚ)
    (libs : List (String × List (String × ℚ × ℚ)))
    (insts : List (String × InstInfo))
    (refdes : String) (info : InstInfo) (pins : List (String × ℚ × ℚ))
    (pin_name : String) (rel : ℚ × ℚ)
    (hinst : dictGet refdes insts = some info)
    (hlib : dictGet info.lib_id libs = some pins)
    (hpin : dictGet pin_name pins = some rel) :
    (dictGet refdes (compile_pin_locations cosD sinD libs insts)).bind
        (fun l => dictGet pin_name l) =
      some (info.x + (rel.1 * cosD info.rotate - rel.2 * sinD info.rotate),
            info.y - (rel.1 * sinD info.rotate + rel.2 * cosD info.rotate)) := by
  induction insts with
  | nil => simp [dictGet] at hinst
  | cons hd tl ih =>
      obtain ⟨r0, i0⟩ := hd
      by_cases hr : refdes = r0
      · subst hr
        rw [dictGet, if_pos rfl] at hinst
        injection hinst with hinst
        subst hinst
        simp only [compile_pin_locations, List.filterMap_cons, hlib]
        rw [dictGet, if_pos rfl]
        simp only [Option.some_bind]
        clear ih hlib
        induction pins with
        | nil => simp [dictGet] at hpin
        | cons p ps ihp =>
            obtain ⟨n0, q0⟩ := p
            by_cases hn : pin_name = n0
            · subst hn
              rw [dictGet, if_pos rfl] at hpin
              injection hpin with hpin
              subst hpin
              simp only [List.map_cons]
              rw [dictGet, if_pos rfl]
              simp [rotate_point]
            · rw [dictGet, if_neg hn] at hpin
              simp only [List.map_cons]
              rw [dictGet, if_neg hn]
              exact ihp hpin
      · rw [dictGet, if_neg hr] at hinst
        have htl := ih hinst
        simp only [compile_pin_locations, List.filterMap_cons]
        cases hc : dictGet i0.lib_id libs with
        | none => simpa [compile_pin_locations, hc] using htl
        | some ps0 =>
            simp only [hc]
            rw [dictGet, if_neg hr]
            simpa [compile_pin_locations] using htl

/-- Witness for C6 at a concrete instance: a symbol with one pin at relative
`(2, 3)`, placed at `(10, 20)` with rotation `90°` (where cosine is exactly
`0` and sine exactly `1`), compiles to `(10 + (2·0 − 3·1), 20 − (2·1 + 3·0))
= (7, 18)`. -/
theorem compile_pin_locations_rotate_then_translate_flip_last_witness :
    (dictGet "J1" (compile_pin_locations (fun _ => 0) (fun _ => 1)
        [("conn", [("p1", (2, 3))])]
        [("J1", ⟨10, 20, 90, "conn"⟩)])).bind
        (fun l => dictGet "p1" l) = some (7, 18) := by
  have h := compile_pin_locations_rotate_then_translate_flip_last
    (fun _ => 0) (fun _ => 1)
    [("conn", [("p1", (2, 3))])]
    [("J1", ⟨10, 20, 90, "conn"⟩)]
    "J1" ⟨10, 20, 90, "conn"⟩ [("p1", (2, 3))] "p1" (2, 3)
    (by simp [dictGet]) (by simp [dictGet]) (by simp [dictGet])
  rw [h]
  norm_num

/-- C8: the arcsine-based angular-offset computation never propagates an
exception: on a degenerate argument (zero radius, or a linear offset larger
in magnitude than the radius, which makes the arcsine argument leave
`[-1, 1]`) the offset collapses to `0`; otherwise it is the arcsine of the
ratio. -/
theorem delta_angle_from_count_total (asinD : ℚ → ℚ) (off r : ℚ) :
    ((r = 0 ∨ |r| < |off|) → delta_angle_from_count asinD off r = 0) ∧
    (r ≠ 0 → |off| ≤ |r| → delta_angle_from_count asinD off r = asinD (off / r)) := by
  constructor
  · rintro (hr | hlt)
    · simp [delta_angle_from_count, pyDiv, hr, Except.bind]
    · by_cases hr : r = 0
      · simp [delta_angle_from_count, pyDiv, hr, Except.bind]
      · have h1 : 1 < |off / r| := by
          rw [abs_div]
          rw [lt_div_iff₀ (abs_pos.mpr hr)]
          simpa using hlt
        simp [delta_angle_from_count, pyDiv, hr, pyAsinDeg, Except.bind, h1]
  · intro hr hle
    have h1 : ¬ 1 < |off / r| := by
      rw [abs_div, not_lt]
      rw [div_le_one (abs_pos.mpr hr)]
      exact hle
    simp [delta_angle_from_count, pyDiv, hr, pyAsinDeg, Except.bind, h1]

/-- Witness for C8: with a zero radius (degenerate case) the offset is `0`,
and with offset `1`, radius `2` it is the arcsine value of `1/2`. -/
theorem delta_angle_from_count_total_witness :
    delta_angle_from_count (fun x => x) 1 0 = 0 ∧
    delta_angle_from_count (fun x => x) 1 2 = 1/2 := by
  constructor
  · exact (delta_angle_from_count_total (fun x => x) 1 0).1 (Or.inl rfl)
  · exact (delta_angle_from_count_total (fun x => x) 1 2).2 (by norm_num) (by norm_num)

end KicadOverlay

namespace KicadOverlay

-- ======================= C10: SVG label text =======================

/-- The whitespace characters stripped by Python's `str.strip()`
(the ASCII whitespace set). -/
def isPySpace (c : Char) : Bool :=
  c = ' ' || c = Char.ofNat 9 || c = Char.ofNat 10 || c = Char.ofNat 13 ||
  c = Char.ofNat 11 || c = Char.ofNat 12

/-- The double-quote character. -/
def quoteChar : Char := Char.ofNat 34

/-- The apostrophe character. -/
def aposChar : Char := Char.ofNat 39

/-- Python's `str.replace` for a single-character needle. -/
def replaceChar (c : Char) (rep : List Char) : List Char → List Char
  | [] => []
  | ch :: rest =>
      if ch = c then rep ++ replaceChar c rep rest
      else ch :: replaceChar c rep rest

/-- The text-normalisation step of `label_svg`:
`text_str = str(text) if text is not None else ""` followed by
`if not text_str.strip(): text_str = "?"`. -/
def labelTextStr (text : Option String) : List Char :=
  if ((text.getD "").toList).all isPySpace then "?".toList
  else (text.getD "").toList

/-- The escaping chain of `label_svg`: replace `&`, then `<`, then `>`, then
the double quote, then the apostrophe, by their XML entities, in that
order. -/
def escapeXml (s : List Char) : List Char :=
  replaceChar aposChar "&apos;".toList
    (replaceChar quoteChar "&quot;".toList
      (replaceChar '>' "&gt;".toList
        (replaceChar '<' "&lt;".toList
          (replaceChar '&' "&amp;".toList s))))

/-- `text_escaped` from `label_svg`: the string interpolated as the content
of the emitted `<text>` element (and used for the box width). -/
def label_svg_text (text : Option String) : List Char :=
  escapeXml (labelTextStr text)

/-- The per-character escaping map that the chain of five replacements
amounts to. -/
def escChar (c : Char) : List Char :=
  if c = '&' then "&amp;".toList
  else if c = '<' then "&lt;".toList
  else if c = '>' then "&gt;".toList
  else if c = quoteChar then "&quot;".toList
  else if c = aposChar then "&apos;".toList
  else [c]

theorem replaceChar_append (c : Char) (rep x y : List Char) :
    replaceChar c rep (x ++ y) = replaceChar c rep x ++ replaceChar c rep y := by
  induction x with
  | nil => simp [replaceChar]
  | cons ch rest ih =>
      by_cases h : ch = c <;> simp [replaceChar, h, ih]

theorem escapeXml_append (x y : List Char) :
    escapeXml (x ++ y) = escapeXml x ++ escapeXml y := by
  simp [escapeXml, replaceChar_append]

theorem escapeXml_singleton (c : Char) : escapeXml [c] = escChar c := by
  by_cases h1 : c = '&'
  · subst h1; decide
  · by_cases h2 : c = '<'
    · subst h2; decide
    · by_cases h3 : c = '>'
      · subst h3; decide
      · by_cases h4 : c = quoteChar
        · subst h4; decide
        · by_cases h5 : c = aposChar
          · subst h5; decide
          · simp [escapeXml, replaceChar, escChar, h1, h2, h3, h4, h5]

theorem escapeXml_eq_flatMap (s : List Char) :
    escapeXml s = s.flatMap escChar := by
  induction s with
  | nil => decide
  | cons c rest ih =>
      have : (c :: rest) = [c] ++ rest := rfl
      rw [this, escapeXml_append, escapeXml_singleton, ih]
      simp [List.flatMap_cons]

theorem escChar_ne_nil (c : Char) : escChar c ≠ [] := by
  by_cases h1 : c = '&'
  · subst h1; decide
  · by_cases h2 : c = '<'
    · subst h2; decide
    · by_cases h3 : c = '>'
      · subst h3; decide
      · by_cases h4 : c = quoteChar
        · subst h4; decide
        · by_cases h5 : c = aposChar
          · subst h5; decide
          · simp [escChar, h1, h2, h3, h4, h5]

theorem labelTextStr_ne_nil (text : Option String) : labelTextStr text ≠ [] := by
  unfold labelTextStr
  by_cases h : ((text.getD "").toList).all isPySpace
  · rw [if_pos h]
    decide
  · rw [if_neg h]
    intro he
    rw [he] at h
    exact h rfl

/-- C10: the SVG label generator never emits empty text — `None` or
whitespace-only input is replaced by `"?"` — and the emitted text content is
the input with each of the five XML special characters (ampersand,
less-than, greater-than, double quote, apostrophe) replaced by its XML
entity (ampersand first, so entities are not double-escaped). -/
theorem label_svg_text_escaped_nonempty (text : Option String) :
    label_svg_text text ≠ [] ∧
    label_svg_text text = (labelTextStr text).flatMap escChar ∧
    ((text = none ∨ ((text.getD "").toList).all isPySpace) →
      labelTextStr text = "?".toList) := by
  refine ⟨?_, ?_, ?_⟩
  · unfold label_svg_text
    rw [escapeXml_eq_flatMap]
    cases he : labelTextStr text with
    | nil => exact absurd he (labelTextStr_ne_nil text)
    | cons c rest =>
        simp only [List.flatMap_cons]
        intro hcontra
        have := List.append_eq_nil.mp hcontra
        exact escChar_ne_nil c this.1
  · unfold label_svg_text
    exact escapeXml_eq_flatMap _
  · rintro (h | h)
    · subst h
      decide
    · unfold labelTextStr
      rw [if_pos h]

/-- Witness for C10: whitespace-only input emits `?`; input containing all
five special characters emits the fully escaped entity string. -/
theorem label_svg_text_escaped_nonempty_witness :
    labelTextStr (some "  ") = "?".toList ∧
    label_svg_text (some "  ") ≠ [] ∧
    label_svg_text (some "a&b<c") = "a&amp;b&lt;c".toList := by
  refine ⟨?_, ?_, ?_⟩
  · exact (label_svg_text_escaped_nonempty (some "  ")).2.2 (Or.inr (by decide))
  · exact (label_svg_text_escaped_nonempty (some "  ")).1
  · have h := (label_svg_text_escaped_nonempty (some "a&b<c")).2.1
    rw [h]
    decide

end KicadOverlay

namespace KicadOverlay

-- ======================= C9: parser setup and empty sections =======================

/-- Index of the first occurrence of `pat` in `s` (Python `re`-style
left-to-right scan for a literal). -/
def strFind (pat : List Char) : List Char → Option ℕ
  | [] => if pat.isPrefixOf ([] : List Char) then some 0 else none
  | c :: rest =>
      if pat.isPrefixOf (c :: rest) then some 0
      else (strFind pat rest).map (· + 1)

/-- The literal head of the `lib_symbols` search pattern
`\(lib_symbols(.*?)\n\t\)`. -/
def LIB_HEADER : List Char := "(lib_symbols".toList

/-- The literal terminator of the `lib_symbols` search pattern: newline,
tab, closing parenthesis. -/
def LIB_TERM : List Char := [Char.ofNat 10, Char.ofNat 9, ')']

/-- `re.search(r"\(lib_symbols(.*?)\n\t\)", content, re.DOTALL)`: the match
starts at the first occurrence of the literal header (the header contains no
newline, so no terminator occurrence can overlap it) and the lazy group runs
to the first terminator after it; `none` when either part is missing. -/
def libSymbolsMatch (content : List Char) : Option (List Char) :=
  match strFind LIB_HEADER content with
  | none => none
  | some i =>
      let rest := content.drop (i + LIB_HEADER.length)
      match strFind LIB_TERM rest with
      | none => none
      | some j => some (rest.take j)

/-- `KiCadSchematicParser._parse_lib_symbols`: when the `lib_symbols`
section is absent the empty collection is returned; otherwise the section
body is scanned for symbol definitions and their pins (`pinScan` stands for
the inner `symbol_pattern`/`pin_pattern` extraction loop over the section
body). -/
def parse_lib_symbols (pinScan : List Char → List (String × List (String × ℚ × ℚ)))
    (content : List Char) : List (String × List (String × ℚ × ℚ)) :=
  match libSymbolsMatch content with
  | none => []
  | some body => pinScan body

/-- One regex match of the placed-symbol-instance pattern. -/
structure InstMatch where
  lib_id : String
  x : ℚ
  y : ℚ
  rotate : ℚ
  refdes : String
  deriving DecidableEq, Repr

/-- `KiCadSchematicParser._parse_lib_instances`: fold the matches of the
symbol-instance pattern (`instMatches` stands for
`re.finditer(symbol_instance_pattern, content)`) into a dict keyed by
reference designator; zero matches give the empty collection. -/
def parse_lib_instances (instMatches : List Char → List InstMatch)
    (content : List Char) : List (String × InstInfo) :=
  (instMatches content).foldl
    (fun acc m => dictInsert m.refdes ⟨m.x, m.y, m.rotate, m.lib_id⟩ acc) []

/-- A raw two-point wire segment in document-native units. -/
structure Wire where
  a_x : ℚ
  a_y : ℚ
  b_x : ℚ
  b_y : ℚ
  deriving DecidableEq, Repr

/-- `KiCadSchematicParser._parse_wires`: fold the matches of the wire
pattern (`wireMatches` stands for `re.finditer(wire_pattern, content)`) into
a dict keyed by wire uuid; zero matches give the empty collection. -/
def parse_wires (wireMatches : List Char → List (String × Wire))
    (content : List Char) : List (String × Wire) :=
  (wireMatches content).foldl (fun acc m => dictInsert m.1 m.2 acc) []

/-- `KiCadSchematicParser.parse`: the three collections. -/
def parserParse (pinScan : List Char → List (String × List (String × ℚ × ℚ)))
    (instMatches : List Char → List InstMatch)
    (wireMatches : List Char → List (String × Wire))
    (content : List Char) :
    List (String × List (String × ℚ × ℚ)) × List (String × InstInfo) ×
      List (String × Wire) :=
  (parse_lib_symbols pinScan content,
   parse_lib_instances instMatches content,
   parse_wires wireMatches content)

/-- The module setup (lines 812-823 of the source): check that the
schematic file exists — `raise FileNotFoundError` naming the path if not —
and only then construct the parser and parse.  The file system is modelled
as a partial map from paths to contents. -/
def runParserSetup (fs : String → Option String)
    (pinScan : List Char → List (String × List (String × ℚ × ℚ)))
    (instMatches : List Char → List InstMatch)
    (wireMatches : List Char → List (String × Wire))
    (schematic_path : String) :
    Except String (List (String × List (String × ℚ × ℚ)) ×
      List (String × InstInfo) × List (String × Wire)) :=
  match fs schematic_path with
  | none => .error ("Schematic not found. Check your kicad sch exists at this name and location: \n"
      ++ schematic_path)
  | some content => .ok (parserParse pinScan instMatches wireMatches content.toList)

/-- C9: a missing schematic document is a fatal reported error naming the
path, raised before any parsing; an existing document with no pin-library
section or no placed instances parses to empty collections without
error. -/
theorem runParserSetup_missing_fatal_empty_ok (fs : String → Option String)
    (pinScan : List Char → List (String × List (String × ℚ × ℚ)))
    (instMatches : List Char → List InstMatch)
    (wireMatches : List Char → List (String × Wire))
    (p : String) :
    (fs p = none →
      ∃ msg, runParserSetup fs pinScan instMatches wireMatches p =
          .error (msg ++ p)) ∧
    (∀ c, fs p = some c →
      runParserSetup fs pinScan instMatches wireMatches p =
          .ok (parserParse pinScan instMatches wireMatches c.toList) ∧
      (libSymbolsMatch c.toList = none →
        (parserParse pinScan instMatches wireMatches c.toList).1 = []) ∧
      (instMatches c.toList = [] →
        (parserParse pinScan instMatches wireMatches c.toList).2.1 = [])) := by
  constructor
  · intro h
    exact ⟨"Schematic not found. Check your kicad sch exists at this name and location: \n",
      by simp [runParserSetup, h]⟩
  · intro c hc
    refine ⟨by simp [runParserSetup, hc], ?_, ?_⟩
    · intro hnone
      show parse_lib_symbols pinScan c.toList = []
      unfold parse_lib_symbols
      rw [hnone]
    · intro hnil
      show parse_lib_instances instMatches c.toList = []
      unfold parse_lib_instances
      rw [hnil]
      rfl

/-- Witness for C9: an empty file system makes the run fail with the
reported path, and a document with no `lib_symbols` section and no
placed-instance matches parses to empty collections. -/
theorem runParserSetup_missing_fatal_empty_ok_witness :
    (∃ msg, runParserSetup (fun _ => none) (fun _ => []) (fun _ => [])
        (fun _ => []) "S01-rev1.kicad_sch" = .error (msg ++ "S01-rev1.kicad_sch")) ∧
    runParserSetup (fun _ => some "(no symbols here)") (fun _ => [])
        (fun _ => []) (fun _ => []) "S01-rev1.kicad_sch" =
      .ok ([], [], []) := by
  constructor
  · exact (runParserSetup_missing_fatal_empty_ok (fun _ => none) (fun _ => [])
      (fun _ => []) (fun _ => []) "S01-rev1.kicad_sch").1 rfl
  · have h := (runParserSetup_missing_fatal_empty_ok (fun _ => some "(no symbols here)")
      (fun _ => []) (fun _ => []) (fun _ => []) "S01-rev1.kicad_sch").2
      "(no symbols here)" rfl
    rw [h.1]
    have h1 := h.2.1 (by decide)
    have h2 := h.2.2 rfl
    simp only [parserParse] at h1 h2 ⊢
    rw [h1, h2]
    simp [parse_wires]

end KicadOverlay

namespace KicadOverlay

-- ======================= C2: graph builder =======================

/-- `TOLERANCE = 0.01` from `build_graph`. -/
def TOLERANCE : ℚ := 1/100

/-- `round_coord(value) = round(value / TOLERANCE) * TOLERANCE`. -/
def round_coord (value : ℚ) : ℚ := (pyRound (value / TOLERANCE) : ℚ) * TOLERANCE

/-- `location_key(x, y)`: the rounded-location dict key for node identity. -/
def location_key (x y : ℚ) : ℚ × ℚ := (round_coord x, round_coord y)

/-- A graph segment: the node ids at its two ends. -/
structure Seg where
  node_at_end_a : String
  node_at_end_b : String
  deriving DecidableEq, Repr

/-- The mutable state of `build_graph`: the `nodes` and `segments` dicts,
the `location_to_node` index and the junction counter. -/
structure BuildState where
  nodes : List (String × ℚ × ℚ)
  segments : List (String × Seg)
  location_to_node : List ((ℚ × ℚ) × String)
  junction_counter : ℕ
  deriving DecidableEq, Repr

/-- Step 1 of `build_graph` for one pin: register `refdes.pin_name` as a
node (coordinates rounded to the output precision) and index its rounded
location. -/
def registerPin (st : BuildState) (refdes pin_name : String) (x y : ℚ) :
    BuildState :=
  { st with
    nodes := dictInsert (refdes ++ "." ++ pin_name)
      (pyRoundTo x OUTPUT_PRECISION, pyRoundTo y OUTPUT_PRECISION) st.nodes,
    location_to_node := dictInsert (location_key x y)
      (refdes ++ "." ++ pin_name) st.location_to_node }

/-- Step 1 of `build_graph`: register all pins of all instances as nodes. -/
def registerPins (pins : List (String × List (String × ℚ × ℚ))) : BuildState :=
  pins.foldl
    (fun st rp =>
      rp.2.foldl (fun st2 pc => registerPin st2 rp.1 pc.1 pc.2.1 pc.2.2) st)
    ⟨[], [], [], 0⟩

/-- Step 2 of `build_graph` for one wire endpoint: reuse the node indexed
at the endpoint's rounded location, or synthesize a fresh
`wirejunction-N` node. -/
def getOrCreateNode (st : BuildState) (x y : ℚ) : BuildState × String :=
  match dictGet (location_key x y) st.location_to_node with
  | some n => (st, n)
  | none =>
      let junction_uuid := "wirejunction-" ++ toString st.junction_counter
      ({ st with
          nodes := dictInsert junction_uuid
            (pyRoundTo x OUTPUT_PRECISION, pyRoundTo y OUTPUT_PRECISION)
            st.nodes,
          location_to_node := dictInsert (location_key x y) junction_uuid
            st.location_to_node,
          junction_counter := st.junction_counter + 1 }, junction_uuid)

/-- Step 2 of `build_graph` for one wire: resolve both endpoint nodes and
record the segment. -/
def processWire (st : BuildState) (wire_uuid : String) (w : Wire) :
    BuildState :=
  let r1 := getOrCreateNode st w.a_x w.a_y
  let r2 := getOrCreateNode r1.1 w.b_x w.b_y
  { r2.1 with segments := dictInsert wire_uuid ⟨r1.2, r2.2⟩ r2.1.segments }

/-- The fold of step 2 over the wire dict. -/
def wireFold (st : BuildState) (wires : List (String × Wire)) : BuildState :=
  wires.foldl (fun st2 uw => processWire st2 uw.1 uw.2) st

/-- The connectivity graph: nodes and segments. -/
structure Graph where
  nodes : List (String × ℚ × ℚ)
  segments : List (String × Seg)
  deriving DecidableEq, Repr

/-- `build_graph(pin_locations_scaled, wire_locations_scaled)` from the
source. -/
def build_graph (pins : List (String × List (String × ℚ × ℚ)))
    (wires : List (String × Wire)) : Graph :=
  let st := wireFold (registerPins pins) wires
  ⟨st.nodes, st.segments⟩

/-- The raw coordinates of one end of a wire (`true` picks end B). -/
def endCoord (w : Wire) (endB : Bool) : ℚ × ℚ :=
  if endB then (w.b_x, w.b_y) else (w.a_x, w.a_y)

/-- The node id assigned to one end of a recorded wire segment. -/
def segEndNode (g : Graph) (wire_uuid : String) (endB : Bool) :
    Option String :=
  (dictGet wire_uuid g.segments).map fun s =>
    if endB then s.node_at_end_b else s.node_at_end_a

theorem getOrCreateNode_spec (st : BuildState) (x y : ℚ) :
    dictGet (location_key x y)
        ((getOrCreateNode st x y).1).location_to_node =
      some (getOrCreateNode st x y).2 ∧
    (∀ k v, dictGet k st.location_to_node = some v →
      dictGet k ((getOrCreateNode st x y).1).location_to_node = some v) ∧
    ((getOrCreateNode st x y).1).segments = st.segments := by
  unfold getOrCreateNode
  cases hc : dictGet (location_key x y) st.location_to_node with
  | some n => exact ⟨hc, fun k v hv => hv, rfl⟩
  | none =>
      refine ⟨dictGet_insert_self _ _ _, ?_, rfl⟩
      intro k v hv
      have hne : k ≠ location_key x y := by
        intro he
        rw [he, hc] at hv
        exact Option.noConfusion hv
      rw [dictGet_insert_ne _ _ hne]
      exact hv

theorem processWire_spec (st : BuildState) (u : String) (w : Wire) :
    (∃ nA nB,
      dictGet u (processWire st u w).segments = some ⟨nA, nB⟩ ∧
      dictGet (location_key w.a_x w.a_y)
        (processWire st u w).location_to_node = some nA ∧
      dictGet (location_key w.b_x w.b_y)
        (processWire st u w).location_to_node = some nB) ∧
    (∀ k v, dictGet k st.location_to_node = some v →
      dictGet k (processWire st u w).location_to_node = some v) ∧
    (∀ u2, u2 ≠ u →
      dictGet u2 (processWire st u w).segments = dictGet u2 st.segments) := by
  obtain ⟨ha1, ha2, ha3⟩ := getOrCreateNode_spec st w.a_x w.a_y
  obtain ⟨hb1, hb2, hb3⟩ :=
    getOrCreateNode_spec (getOrCreateNode st w.a_x w.a_y).1 w.b_x w.b_y
  refine ⟨⟨(getOrCreateNode st w.a_x w.a_y).2,
    (getOrCreateNode (getOrCreateNode st w.a_x w.a_y).1 w.b_x w.b_y).2,
    ?_, ?_, ?_⟩, ?_, ?_⟩
  · show dictGet u (dictInsert u _ _) = _
    rw [dictGet_insert_self]
  · show dictGet _
      ((getOrCreateNode (getOrCreateNode st w.a_x w.a_y).1 w.b_x w.b_y).1).location_to_node = _
    exact hb2 _ _ ha1
  · exact hb1
  · intro k v hv
    exact hb2 _ _ (ha2 _ _ hv)
  · intro u2 hne
    show dictGet u2 (dictInsert u _ _) = _
    rw [dictGet_insert_ne _ _ hne, hb3, ha3]

theorem wireFold_loc_mono (wires : List (String × Wire)) :
    ∀ (st : BuildState) (k : ℚ × ℚ) (v : String),
      dictGet k st.location_to_node = some v →
      dictGet k (wireFold st wires).location_to_node = some v := by
  induction wires with
  | nil => exact fun st k v hv => hv
  | cons hd tl ih =>
      intro st k v hv
      exact ih _ _ _ ((processWire_spec st hd.1 hd.2).2.1 _ _ hv)

theorem wireFold_seg_preserve (wires : List (String × Wire)) :
    ∀ (st : BuildState) (u : String), u ∉ wires.map Prod.fst →
      dictGet u (wireFold st wires).segments = dictGet u st.segments := by
  induction wires with
  | nil => exact fun st u _ => rfl
  | cons hd tl ih =>
      intro st u hu
      simp only [List.map_cons, List.mem_cons, not_or] at hu
      rw [wireFold, List.foldl_cons]
      show dictGet u (wireFold (processWire st hd.1 hd.2) tl).segments = _
      rw [ih _ _ hu.2, (processWire_spec st hd.1 hd.2).2.2 _ hu.1]

theorem wireFold_spec (wires : List (String × Wire)) :
    ∀ (st : BuildState) (u : String) (w : Wire),
      (u, w) ∈ wires → (wires.map Prod.fst).Nodup →
      ∃ nA nB,
        dictGet u (wireFold st wires).segments = some ⟨nA, nB⟩ ∧
        dictGet (location_key w.a_x w.a_y)
          (wireFold st wires).location_to_node = some nA ∧
        dictGet (location_key w.b_x w.b_y)
          (wireFold st wires).location_to_node = some nB := by
  induction wires with
  | nil => intro st u w hmem; exact absurd hmem (List.not_mem_nil _)
  | cons hd tl ih =>
      intro st u w hmem hnd
      simp only [List.map_cons, List.nodup_cons] at hnd
      rcases List.mem_cons.mp hmem with heq | htl
      · have hu : u = hd.1 := by rw [← heq]
        have hw : w = hd.2 := by rw [← heq]
        obtain ⟨⟨nA, nB, hseg, hA, hB⟩, _, _⟩ := processWire_spec st hd.1 hd.2
        refine ⟨nA, nB, ?_, ?_, ?_⟩
        · rw [wireFold, List.foldl_cons]
          show dictGet u (wireFold (processWire st hd.1 hd.2) tl).segments = _
          have hnotin : u ∉ tl.map Prod.fst := by
            rw [hu]; exact hnd.1
          rw [wireFold_seg_preserve tl _ u hnotin, hu]
          exact hseg
        · rw [wireFold, List.foldl_cons]
          show dictGet _ (wireFold (processWire st hd.1 hd.2) tl).location_to_node = _
          rw [hw]
          exact wireFold_loc_mono tl _ _ _ hA
        · rw [wireFold, List.foldl_cons]
          show dictGet _ (wireFold (processWire st hd.1 hd.2) tl).location_to_node = _
          rw [hw]
          exact wireFold_loc_mono tl _ _ _ hB
      · rw [wireFold, List.foldl_cons]
        exact ih _ _ _ htl hnd.2

/-- C2 counterexample: two distinct pins (`R1.a` and `R2.a`) whose
coordinates coincide (hence agree after rounding to the 0.01 tolerance) are
registered as two distinct nodes occupying the same rounded location, so
equal-rounded coordinates are not always assigned the same node. -/
theorem build_graph_distinct_nodes_same_location_counterexample :
    build_graph [("R1", [("a", (0, 0))]), ("R2", [("a", (0, 0))])] [] =
      ⟨[("R1.a", (0, 0)), ("R2.a", (0, 0))], []⟩ ∧
    location_key 0 0 = location_key 0 0 ∧
    ("R1.a" : String) ≠ "R2.a" := by
  refine ⟨?_, rfl, by decide⟩
  simp [build_graph, wireFold, registerPins, registerPin, dictInsert,
    pyRoundTo_zero, List.foldl]

/-- C2 amended: restricted to wire endpoints the claim holds — every raw
wire endpoint is assigned exactly one node, and two wire endpoints whose
coordinates agree after rounding to the 0.01 tolerance are assigned the
same node (two distinct pins at one rounded location, however, stay
distinct nodes; the location index keeps only the last one). -/
theorem build_graph_wire_endpoints_share_node
    (pins : List (String × List (String × ℚ × ℚ)))
    (wires : List (String × Wire))
    (hnd : (wires.map Prod.fst).Nodup)
    (u1 u2 : String) (w1 w2 : Wire) (e1 e2 : Bool)
    (h1 : (u1, w1) ∈ wires) (h2 : (u2, w2) ∈ wires)
    (hkey : location_key (endCoord w1 e1).1 (endCoord w1 e1).2 =
            location_key (endCoord w2 e2).1 (endCoord w2 e2).2) :
    ∃ n, segEndNode (build_graph pins wires) u1 e1 = some n ∧
         segEndNode (build_graph pins wires) u2 e2 = some n := by
  obtain ⟨nA1, nB1, hs1, hA1, hB1⟩ :=
    wireFold_spec wires (registerPins pins) u1 w1 h1 hnd
  obtain ⟨nA2, nB2, hs2, hA2, hB2⟩ :=
    wireFold_spec wires (registerPins pins) u2 w2 h2 hnd
  have hg : (build_graph pins wires).segments =
      (wireFold (registerPins pins) wires).segments := rfl
  cases e1 <;> cases e2
  · simp [endCoord] at hkey
    rw [hkey] at hA1
    have he := Option.some.inj (hA1.symm.trans hA2)
    refine ⟨nA1, ?_, ?_⟩ <;> simp [segEndNode, hg, hs1, hs2, he]
  · simp [endCoord] at hkey
    rw [hkey] at hA1
    have he := Option.some.inj (hA1.symm.trans hB2)
    refine ⟨nA1, ?_, ?_⟩ <;> simp [segEndNode, hg, hs1, hs2, he]
  · simp [endCoord] at hkey
    rw [hkey] at hB1
    have he := Option.some.inj (hB1.symm.trans hA2)
    refine ⟨nB1, ?_, ?_⟩ <;> simp [segEndNode, hg, hs1, hs2, he]
  · simp [endCoord] at hkey
    rw [hkey] at hB1
    have he := Option.some.inj (hB1.symm.trans hB2)
    refine ⟨nB1, ?_, ?_⟩ <;> simp [segEndNode, hg, hs1, hs2, he]

/-- Witness for the amended C2: two wires meeting at `(1, 0)` have that
endpoint assigned one shared node. -/
theorem build_graph_wire_endpoints_share_node_witness :
    ∃ n,
      segEndNode (build_graph []
          [("w1", ⟨0, 0, 1, 0⟩), ("w2", ⟨1, 0, 2, 0⟩)]) "w1" true = some n ∧
      segEndNode (build_graph []
          [("w1", ⟨0, 0, 1, 0⟩), ("w2", ⟨1, 0, 2, 0⟩)]) "w2" false = some n :=
  build_graph_wire_endpoints_share_node []
    [("w1", ⟨0, 0, 1, 0⟩), ("w2", ⟨1, 0, 2, 0⟩)] (by decide)
    "w1" "w2" ⟨0, 0, 1, 0⟩ ⟨1, 0, 2, 0⟩ true false
    (List.mem_cons_self _ _) (List.mem_cons_of_mem _ (List.mem_cons_self _ _)) rfl

end KicadOverlay

namespace KicadOverlay

-- ======================= C4: BFS path resolver =======================

/-- Traversal direction of a segment within a resolved path. -/
inductive Dir
  | a_to_b
  | b_to_a
  deriving DecidableEq, Repr

/-- A BFS path: the `(segment uuid, direction)` list carried by each queue
entry. -/
abbrev BfsPath := List (String × Dir)

/-- One step along a recorded segment: starting at `cur`, a
`(uuid, direction)` pair leads to the far node when `cur` is the node at
the direction's entry end. -/
def stepNode (segs : List (String × Seg)) (cur : String) (sd : String × Dir) :
    Option String :=
  match dictGet sd.1 segs, sd.2 with
  | some sg, .a_to_b =>
      if sg.node_at_end_a = cur then some sg.node_at_end_b else none
  | some sg, .b_to_a =>
      if sg.node_at_end_b = cur then some sg.node_at_end_a else none
  | none, _ => none

/-- Follow a path from `cur`, returning the final node when every step is
consistent with the recorded segments. -/
def followPath (segs : List (String × Seg)) (cur : String) :
    BfsPath → Option String
  | [] => some cur
  | sd :: rest =>
      match stepNode segs cur sd with
      | some nxt => followPath segs nxt rest
      | none => none

/-- `followPath` from `src` reaches `n` along `p`: `p` is a valid resolved
path from `src` to `n`. -/
def ValidP (segs : List (String × Seg)) (src n : String) (p : BfsPath) : Prop :=
  followPath segs src p = some n

/-- The fold step of the BFS inner loop over the segments dict: from `cur`
(reached by path `p`), enqueue the far node of an incident segment when it
is not yet visited, marking it visited at enqueue time. -/
def expandStep (cur : String) (p : BfsPath)
    (acc : List (String × BfsPath) × List String) (su : String × Seg) :
    List (String × BfsPath) × List String :=
  if su.2.node_at_end_a = cur ∧ su.2.node_at_end_b ∉ acc.2 then
    (acc.1 ++ [(su.2.node_at_end_b, p ++ [(su.1, Dir.a_to_b)])],
     su.2.node_at_end_b :: acc.2)
  else if su.2.node_at_end_b = cur ∧ su.2.node_at_end_a ∉ acc.2 then
    (acc.1 ++ [(su.2.node_at_end_a, p ++ [(su.1, Dir.b_to_a)])],
     su.2.node_at_end_a :: acc.2)
  else acc

/-- The inner `for segment_uuid, segment_info in graph["segments"].items()`
loop of the BFS, producing the entries to append to the queue and the
updated visited set. -/
def expandNode (segs : List (String × Seg)) (cur : String) (p : BfsPath)
    (visited : List String) : List (String × BfsPath) × List String :=
  segs.foldl (expandStep cur p) ([], visited)

/-- The BFS loop (`while queue and not found_path`), fuel-indexed: `none`
means the fuel ran out (which never happens with the fuel supplied by
`resolve_path`), `some none` means the queue emptied without reaching the
target (the "No path found" error), and `some (some p)` is the path found
when the target is dequeued. -/
def bfsLoop (segs : List (String × Seg)) (to_node : String) :
    ℕ → List (String × BfsPath) → List String → Option (Option BfsPath)
  | 0, _, _ => none
  | _ + 1, [], _ => some none
  | fuel + 1, (cur, p) :: rest, visited =>
      if cur = to_node then some (some p)
      else
        let ex := expandNode segs cur p visited
        bfsLoop segs to_node fuel (rest ++ ex.1) ex.2

/-- Fuel on which the BFS loop always terminates by natural exhaustion:
each dequeue consumes either the initial entry or one of at most
`2 * |segments|` fresh endpoint enqueues. -/
def bfsFuel (segs : List (String × Seg)) : ℕ := 2 * segs.length + 2

/-- The module-level BFS path resolution (lines 882-930 of the source):
search from `from_node` for `to_node`; `none` corresponds to the
"No path found" error raised when the queue empties. -/
def resolve_path (segs : List (String × Seg)) (from_node to_node : String) :
    Option BfsPath :=
  match bfsLoop segs to_node (bfsFuel segs) [(from_node, [])] [from_node] with
  | some r => r
  | none => none

theorem mem_of_dictGet {α β : Type} [DecidableEq α] :
    ∀ {l : List (α × β)} {k : α} {v : β},
      dictGet k l = some v → (k, v) ∈ l := by
  intro l
  induction l with
  | nil => intro k v h; exact absurd h (by simp [dictGet])
  | cons hd tl ih =>
      intro k v h
      obtain ⟨k0, v0⟩ := hd
      by_cases hk : k = k0
      · subst hk
        rw [dictGet, if_pos rfl] at h
        injection h with h
        subst h
        exact List.mem_cons_self _ _
      · rw [dictGet, if_neg hk] at h
        exact List.mem_cons_of_mem _ (ih h)

theorem dictGet_eq_of_mem {α β : Type} [DecidableEq α] :
    ∀ {l : List (α × β)}, (l.map Prod.fst).Nodup →
      ∀ {k : α} {v : β}, (k, v) ∈ l → dictGet k l = some v := by
  intro l
  induction l with
  | nil => intro _ k v h; exact absurd h (List.not_mem_nil _)
  | cons hd tl ih =>
      intro hnd k v h
      obtain ⟨k0, v0⟩ := hd
      simp only [List.map_cons, List.nodup_cons] at hnd
      rcases List.mem_cons.mp h with heq | htl
      · injection heq with h1 h2
        subst h1
        subst h2
        rw [dictGet, if_pos rfl]
      · have hk : k ≠ k0 := by
          intro he
          subst he
          exact hnd.1 (List.mem_map_of_mem Prod.fst htl)
        rw [dictGet, if_neg hk]
        exact ih hnd.2 htl

theorem followPath_append (segs : List (String × Seg)) :
    ∀ (p q : BfsPath) (cur : String),
      followPath segs cur (p ++ q) =
        (followPath segs cur p).bind (fun n => followPath segs n q) := by
  intro p
  induction p with
  | nil => intro q cur; simp [followPath]
  | cons sd rest ih =>
      intro q cur
      rw [List.cons_append, followPath, followPath]
      cases stepNode segs cur sd with
      | none => simp
      | some nxt => exact ih q nxt

theorem followPath_singleton (segs : List (String × Seg)) (cur : String)
    (sd : String × Dir) : followPath segs cur [sd] = stepNode segs cur sd := by
  rw [followPath]
  cases stepNode segs cur sd with
  | none => rfl
  | some nxt => rfl

end KicadOverlay

namespace KicadOverlay

theorem expandFold_spec (cur : String) (p : BfsPath) :
    ∀ (l : List (String × Seg)) (acc : List (String × BfsPath) × List String),
      ∃ new : List (String × BfsPath),
        l.foldl (expandStep cur p) acc =
          (acc.1 ++ new, (new.map Prod.fst).reverse ++ acc.2) ∧
        (new.map Prod.fst).Nodup ∧
        (∀ e ∈ new, e.1 ∉ acc.2 ∧ ∃ su ∈ l,
            ((su.2.node_at_end_a = cur ∧ e.1 = su.2.node_at_end_b ∧
                e.2 = p ++ [(su.1, Dir.a_to_b)]) ∨
             (su.2.node_at_end_b = cur ∧ e.1 = su.2.node_at_end_a ∧
                e.2 = p ++ [(su.1, Dir.b_to_a)]))) ∧
        (cur ∈ acc.2 → ∀ su ∈ l,
          (su.2.node_at_end_a = cur →
            su.2.node_at_end_b ∈ (new.map Prod.fst).reverse ++ acc.2) ∧
          (su.2.node_at_end_b = cur →
            su.2.node_at_end_a ∈ (new.map Prod.fst).reverse ++ acc.2)) := by
  intro l
  induction l with
  | nil =>
      intro acc
      refine ⟨[], by simp, by simp, by simp, by simp⟩
  | cons su rest ih =>
      intro acc
      rw [List.foldl_cons]
      by_cases hA : su.2.node_at_end_a = cur ∧ su.2.node_at_end_b ∉ acc.2
      · have hstep : expandStep cur p acc su =
            (acc.1 ++ [(su.2.node_at_end_b, p ++ [(su.1, Dir.a_to_b)])],
             su.2.node_at_end_b :: acc.2) := by
          rw [expandStep, if_pos hA]
        rw [hstep]
        obtain ⟨new2, hfold, hnd2, hprop2, hclos2⟩ :=
          ih (acc.1 ++ [(su.2.node_at_end_b, p ++ [(su.1, Dir.a_to_b)])],
              su.2.node_at_end_b :: acc.2)
        refine ⟨(su.2.node_at_end_b, p ++ [(su.1, Dir.a_to_b)]) :: new2,
          ?_, ?_, ?_, ?_⟩
        · rw [hfold]
          simp [List.append_assoc]
        · simp only [List.map_cons, List.nodup_cons]
          refine ⟨?_, hnd2⟩
          intro hmem
          obtain ⟨e, hemem, heq⟩ := List.mem_map.mp hmem
          have := (hprop2 e hemem).1
          rw [heq] at this
          exact this (List.mem_cons_self _ _)
        · intro e hemem
          rcases List.mem_cons.mp hemem with heq | htl
          · subst heq
            exact ⟨hA.2, su, List.mem_cons_self _ _, Or.inl ⟨hA.1, rfl, rfl⟩⟩
          · obtain ⟨hnotin, su2, hsu2, hcase⟩ := hprop2 e htl
            exact ⟨fun hc => hnotin (List.mem_cons_of_mem _ hc),
              su2, List.mem_cons_of_mem _ hsu2, hcase⟩
        · intro hcur su2 hsu2
          have hlist : ((((su.2.node_at_end_b, p ++ [(su.1, Dir.a_to_b)]) :: new2).map
              Prod.fst).reverse ++ acc.2) =
              ((new2.map Prod.fst).reverse ++ (su.2.node_at_end_b :: acc.2)) := by
            simp [List.append_assoc]
          rcases List.mem_cons.mp hsu2 with heq | htl
          · subst heq
            constructor
            · intro _
              rw [hlist]
              exact List.mem_append_right _ (List.mem_cons_self _ _)
            · intro hb
              exact absurd (hb ▸ hcur) hA.2
          · have := hclos2 (List.mem_cons_of_mem _ hcur) su2 htl
            rw [hlist]
            exact this
      · by_cases hB : su.2.node_at_end_b = cur ∧ su.2.node_at_end_a ∉ acc.2
        · have hstep : expandStep cur p acc su =
              (acc.1 ++ [(su.2.node_at_end_a, p ++ [(su.1, Dir.b_to_a)])],
               su.2.node_at_end_a :: acc.2) := by
            rw [expandStep, if_neg hA, if_pos hB]
          rw [hstep]
          obtain ⟨new2, hfold, hnd2, hprop2, hclos2⟩ :=
            ih (acc.1 ++ [(su.2.node_at_end_a, p ++ [(su.1, Dir.b_to_a)])],
                su.2.node_at_end_a :: acc.2)
          refine ⟨(su.2.node_at_end_a, p ++ [(su.1, Dir.b_to_a)]) :: new2,
            ?_, ?_, ?_, ?_⟩
          · rw [hfold]
            simp [List.append_assoc]
          · simp only [List.map_cons, List.nodup_cons]
            refine ⟨?_, hnd2⟩
            intro hmem
            obtain ⟨e, hemem, heq⟩ := List.mem_map.mp hmem
            have := (hprop2 e hemem).1
            rw [heq] at this
            exact this (List.mem_cons_self _ _)
          · intro e hemem
            rcases List.mem_cons.mp hemem with heq | htl
            · subst heq
              exact ⟨hB.2, su, List.mem_cons_self _ _, Or.inr ⟨hB.1, rfl, rfl⟩⟩
            · obtain ⟨hnotin, su2, hsu2, hcase⟩ := hprop2 e htl
              exact ⟨fun hc => hnotin (List.mem_cons_of_mem _ hc),
                su2, List.mem_cons_of_mem _ hsu2, hcase⟩
          · intro hcur su2 hsu2
            have hlist : ((((su.2.node_at_end_a, p ++ [(su.1, Dir.b_to_a)]) :: new2).map
                Prod.fst).reverse ++ acc.2) =
                ((new2.map Prod.fst).reverse ++ (su.2.node_at_end_a :: acc.2)) := by
              simp [List.append_assoc]
            rcases List.mem_cons.mp hsu2 with heq | htl
            · subst heq
              constructor
              · intro ha
                have hb : su2.2.node_at_end_b ∈ acc.2 := by
                  by_contra hc
                  exact hA ⟨ha, hc⟩
                rw [hlist]
                exact List.mem_append_right _ (List.mem_cons_of_mem _ hb)
              · intro _
                rw [hlist]
                exact List.mem_append_right _ (List.mem_cons_self _ _)
            · have := hclos2 (List.mem_cons_of_mem _ hcur) su2 htl
              rw [hlist]
              exact this
        · have hstep : expandStep cur p acc su = acc := by
            rw [expandStep, if_neg hA, if_neg hB]
          rw [hstep]
          obtain ⟨new2, hfold, hnd2, hprop2, hclos2⟩ := ih acc
          refine ⟨new2, hfold, hnd2, ?_, ?_⟩
          · intro e hemem
            obtain ⟨hnotin, su2, hsu2, hcase⟩ := hprop2 e hemem
            exact ⟨hnotin, su2, List.mem_cons_of_mem _ hsu2, hcase⟩
          · intro hcur su2 hsu2
            rcases List.mem_cons.mp hsu2 with heq | htl
            · subst heq
              constructor
              · intro ha
                have hb : su2.2.node_at_end_b ∈ acc.2 := by
                  by_contra hc
                  exact hA ⟨ha, hc⟩
                exact List.mem_append_right _ hb
              · intro hb
                have ha : su2.2.node_at_end_a ∈ acc.2 := by
                  by_contra hc
                  exact hB ⟨hb, hc⟩
                exact List.mem_append_right _ ha
            · exact hclos2 hcur su2 htl

end KicadOverlay

namespace KicadOverlay

/-- BFS queue invariant 1: every queue entry carries a valid, minimal-length
path to its (already visited) node. -/
def QInv1 (segs : List (String × Seg)) (src : String)
    (queue : List (String × BfsPath)) (visited : List String) : Prop :=
  ∀ e ∈ queue, ValidP segs src e.1 e.2 ∧ e.1 ∈ visited ∧
    ∀ q, ValidP segs src e.1 q → e.2.length ≤ q.length

/-- BFS queue invariant 2: queue path lengths are nondecreasing and exceed
the head length by at most one. -/
def QInv2 (queue : List (String × BfsPath)) : Prop :=
  queue.Pairwise (fun a b => a.2.length ≤ b.2.length) ∧
  ∀ e ∈ queue, ∀ hd, queue.head? = some hd → e.2.length ≤ hd.2.length + 1

/-- BFS queue invariant 3: a visited node that is no longer in the queue has
been fully expanded — all its segment neighbours are visited. -/
def QInv3 (segs : List (String × Seg))
    (queue : List (String × BfsPath)) (visited : List String) : Prop :=
  ∀ m ∈ visited, (∀ e ∈ queue, e.1 ≠ m) → ∀ su ∈ segs,
    (su.2.node_at_end_a = m → su.2.node_at_end_b ∈ visited) ∧
    (su.2.node_at_end_b = m → su.2.node_at_end_a ∈ visited)

/-- BFS queue invariant 4: every node reachable from the source by a path
no longer than the head entry's path has already been visited. -/
def QInv4 (segs : List (String × Seg)) (src : String)
    (queue : List (String × BfsPath)) (visited : List String) : Prop :=
  ∀ hd, queue.head? = some hd → ∀ m q, ValidP segs src m q →
    q.length ≤ hd.2.length → m ∈ visited

theorem bfs_step_invs (segs : List (String × Seg))
    (hnd : (segs.map Prod.fst).Nodup) (src : String)
    (cur : String) (p0 : BfsPath) (rest : List (String × BfsPath))
    (visited : List String)
    (h1 : QInv1 segs src ((cur, p0) :: rest) visited)
    (h2 : QInv2 ((cur, p0) :: rest))
    (h3 : QInv3 segs ((cur, p0) :: rest) visited)
    (h4 : QInv4 segs src ((cur, p0) :: rest) visited) :
    QInv1 segs src (rest ++ (expandNode segs cur p0 visited).1)
        (expandNode segs cur p0 visited).2 ∧
    QInv2 (rest ++ (expandNode segs cur p0 visited).1) ∧
    QInv3 segs (rest ++ (expandNode segs cur p0 visited).1)
        (expandNode segs cur p0 visited).2 ∧
    QInv4 segs src (rest ++ (expandNode segs cur p0 visited).1)
        (expandNode segs cur p0 visited).2 := by
  obtain ⟨new, hex, hndnew, hprop, hclos⟩ := expandFold_spec cur p0 segs ([], visited)
  have hex1 : (expandNode segs cur p0 visited).1 = new := by
    rw [expandNode, hex]
    simp
  have hex2 : (expandNode segs cur p0 visited).2 =
      (new.map Prod.fst).reverse ++ visited := by
    rw [expandNode, hex]
  rw [hex1, hex2]
  obtain ⟨hvc, hcv, hmc⟩ := h1 (cur, p0) (List.mem_cons_self _ _)
  have hclosv := hclos hcv
  -- facts about the new entries
  have hnewfacts : ∀ e ∈ new, ValidP segs src e.1 e.2 ∧
      e.2.length = p0.length + 1 ∧
      (∀ q, ValidP segs src e.1 q → e.2.length ≤ q.length) ∧
      e.1 ∉ visited := by
    intro e hemem
    obtain ⟨hnotv, su, hsu, hcase⟩ := hprop e hemem
    have hstep : ∃ sd : String × Dir, e.2 = p0 ++ [sd] ∧
        stepNode segs cur sd = some e.1 := by
      rcases hcase with ⟨ha, hb, hpe⟩ | ⟨ha, hb, hpe⟩
      · refine ⟨(su.1, Dir.a_to_b), hpe, ?_⟩
        rw [stepNode]
        rw [dictGet_eq_of_mem hnd hsu]
        show (if su.2.node_at_end_a = cur then some su.2.node_at_end_b
          else none) = some e.1
        rw [if_pos ha, hb]
      · refine ⟨(su.1, Dir.b_to_a), hpe, ?_⟩
        rw [stepNode]
        rw [dictGet_eq_of_mem hnd hsu]
        show (if su.2.node_at_end_b = cur then some su.2.node_at_end_a
          else none) = some e.1
        rw [if_pos ha, hb]
    obtain ⟨sd, hpe, hsd⟩ := hstep
    have hvalid : ValidP segs src e.1 e.2 := by
      rw [ValidP, hpe, followPath_append, hvc]
      simp only [Option.some_bind, followPath, hsd]
    have hlen : e.2.length = p0.length + 1 := by
      rw [hpe]
      simp
    refine ⟨hvalid, hlen, ?_, hnotv⟩
    intro q hq
    by_contra hlt
    push_neg at hlt
    have hqle : q.length ≤ p0.length := by omega
    exact hnotv (h4 (cur, p0) rfl e.1 q hq hqle)
  have hnew_vis : ∀ e ∈ new, e.1 ∈ (new.map Prod.fst).reverse ++ visited := by
    intro e hemem
    exact List.mem_append_left _
      (List.mem_reverse.mpr (List.mem_map_of_mem Prod.fst hemem))
  have hrest_lb : ∀ e ∈ rest, p0.length ≤ e.2.length := by
    intro e hemem
    exact (List.pairwise_cons.mp h2.1).1 e hemem
  have hq_ub : ∀ e ∈ (cur, p0) :: rest, e.2.length ≤ p0.length + 1 := by
    intro e hemem
    exact h2.2 e hemem (cur, p0) rfl
  -- QInv1
  have hI1 : QInv1 segs src (rest ++ new) ((new.map Prod.fst).reverse ++ visited) := by
    intro e hemem
    rcases List.mem_append.mp hemem with hr | hn
    · obtain ⟨hv, hvis, hmin⟩ := h1 e (List.mem_cons_of_mem _ hr)
      exact ⟨hv, List.mem_append_right _ hvis, hmin⟩
    · obtain ⟨hv, _, hmin, _⟩ := hnewfacts e hn
      exact ⟨hv, hnew_vis e hn, hmin⟩
  -- QInv2
  have hI2 : QInv2 (rest ++ new) := by
    constructor
    · rw [List.pairwise_append]
      refine ⟨(List.pairwise_cons.mp h2.1).2, ?_, ?_⟩
      · refine List.pairwise_of_forall_mem_list ?_
        intro a ha b hb
        rw [(hnewfacts a ha).2.1, (hnewfacts b hb).2.1]
      · intro a ha b hb
        rw [(hnewfacts b hb).2.1]
        exact hq_ub a (List.mem_cons_of_mem _ ha)
    · intro e hemem hd2 hhd2
      cases rest with
      | nil =>
          cases new with
          | nil => exact absurd hhd2 (by simp)
          | cons n0 ns =>
              have hhd : hd2 = n0 := by
                simp only [List.nil_append, List.head?_cons] at hhd2
                exact (Option.some.inj hhd2).symm
              have h0 := (hnewfacts n0 (List.mem_cons_self _ _)).2.1
              rcases List.mem_append.mp hemem with hr | hn
              · exact absurd hr (List.not_mem_nil _)
              · rw [(hnewfacts e hn).2.1, hhd, h0]
                omega
      | cons r0 rs =>
          have hhd : hd2 = r0 := by
            simp only [List.cons_append, List.head?_cons] at hhd2
            exact (Option.some.inj hhd2).symm
          have hr0 : p0.length ≤ r0.2.length :=
            hrest_lb r0 (List.mem_cons_self _ _)
          rcases List.mem_append.mp hemem with hr | hn
          · have := hq_ub e (List.mem_cons_of_mem _ hr)
            rw [hhd]
            omega
          · rw [(hnewfacts e hn).2.1, hhd]
            omega
  -- QInv3
  have hI3 : QInv3 segs (rest ++ new) ((new.map Prod.fst).reverse ++ visited) := by
    intro m hmv hnotq su hsu
    rcases List.mem_append.mp hmv with hrev | hvis
    · obtain ⟨e, hemem, heq⟩ := List.mem_map.mp (List.mem_reverse.mp hrev)
      exact absurd heq (hnotq e (List.mem_append_right _ hemem))
    · by_cases hm : m = cur
      · subst hm
        exact hclosv su hsu
      · have hold := h3 m hvis ?_ su hsu
        · exact ⟨fun ha => List.mem_append_right _ (hold.1 ha),
            fun hb => List.mem_append_right _ (hold.2 hb)⟩
        · intro e hemem
          rcases List.mem_cons.mp hemem with heq | hr
          · rw [heq]
            intro hc
            exact hm hc.symm
          · exact hnotq e (List.mem_append_left _ hr)
  -- QInv4
  have hI4 : QInv4 segs src (rest ++ new) ((new.map Prod.fst).reverse ++ visited) := by
    intro hd2 hhd2 m q hvq hlen
    have hhdmem : hd2 ∈ rest ++ new := by
      cases hq : rest ++ new with
      | nil => rw [hq] at hhd2; exact absurd hhd2 (by simp)
      | cons x xs =>
          rw [hq] at hhd2
          simp only [List.head?_cons] at hhd2
          exact (Option.some.inj hhd2) ▸ List.mem_cons_self _ _
    have hq_lb2 : ∀ e ∈ rest ++ new, hd2.2.length ≤ e.2.length := by
      intro e hemem
      cases hqe : rest ++ new with
      | nil => rw [hqe] at hemem; exact absurd hemem (List.not_mem_nil _)
      | cons x xs =>
          rw [hqe] at hhd2 hemem
          simp only [List.head?_cons] at hhd2
          have hx : x = hd2 := Option.some.inj hhd2
          subst hx
          rcases List.mem_cons.mp hemem with heq | hxs
          · rw [heq]
          · have hpw := hI2.1
            rw [hqe] at hpw
            exact (List.pairwise_cons.mp hpw).1 e hxs
    have hub : hd2.2.length ≤ p0.length + 1 := by
      rcases List.mem_append.mp hhdmem with hr | hn
      · exact hq_ub hd2 (List.mem_cons_of_mem _ hr)
      · rw [(hnewfacts hd2 hn).2.1]
    by_cases hle : q.length ≤ p0.length
    · exact List.mem_append_right _ (h4 (cur, p0) rfl m q hvq hle)
    · push_neg at hle
      have hqlen : q.length = p0.length + 1 := by omega
      have hqne : q ≠ [] := by
        intro hc
        rw [hc] at hqlen
        simp at hqlen
      obtain ⟨q0, sd, hq0⟩ : ∃ q0 sd, q = q0 ++ [sd] :=
        ⟨q.dropLast, q.getLast hqne, (List.dropLast_append_getLast hqne).symm⟩
      have hq0len : q0.length = p0.length := by
        rw [hq0] at hqlen
        simp at hqlen
        omega
      have hsplit := hvq
      rw [ValidP, hq0, followPath_append] at hsplit
      cases hu : followPath segs src q0 with
      | none => rw [hu] at hsplit; exact absurd hsplit (by simp)
      | some u =>
          rw [hu] at hsplit
          simp only [Option.some_bind] at hsplit
          have hstepu : stepNode segs u sd = some m := by
            rw [followPath_singleton] at hsplit
            exact hsplit
          have huvis : u ∈ visited :=
            h4 (cur, p0) rfl u q0 hu (le_of_eq hq0len)
          have hu_notq : ∀ e ∈ rest ++ new, e.1 ≠ u := by
            intro e hemem hc
            have hmin := (hI1 e hemem).2.2
            have := hmin q0 (hc ▸ hu)
            have hlb := hq_lb2 e hemem
            have : p0.length + 1 ≤ e.2.length := by
              rcases List.mem_append.mp hemem with hr | hn
              · omega
              · rw [(hnewfacts e hn).2.1]
            omega
          have hcl := hI3 u (List.mem_append_right _ huvis) hu_notq
          rw [stepNode] at hstepu
          cases hg : dictGet sd.1 segs with
          | none => rw [hg] at hstepu; cases sd.2 <;> simp at hstepu
          | some sg =>
              have hsgmem : (sd.1, sg) ∈ segs := mem_of_dictGet hg
              have hclsg := hcl (sd.1, sg) hsgmem
              rw [hg] at hstepu
              cases hdir : sd.2 with
              | a_to_b =>
                  rw [hdir] at hstepu
                  simp only at hstepu
                  by_cases hau : sg.node_at_end_a = u
                  · rw [if_pos hau] at hstepu
                    have hm : sg.node_at_end_b = m := Option.some.inj hstepu
                    exact hm ▸ hclsg.1 hau
                  · rw [if_neg hau] at hstepu
                    exact absurd hstepu (by simp)
              | b_to_a =>
                  rw [hdir] at hstepu
                  simp only at hstepu
                  by_cases hbu : sg.node_at_end_b = u
                  · rw [if_pos hbu] at hstepu
                    have hm : sg.node_at_end_a = m := Option.some.inj hstepu
                    exact hm ▸ hclsg.2 hbu
                  · rw [if_neg hbu] at hstepu
                    exact absurd hstepu (by simp)
  exact ⟨hI1, hI2, hI3, hI4⟩

end KicadOverlay

namespace KicadOverlay

theorem stepNode_closed (segs : List (String × Seg)) (visited : List String)
    (cur nxt : String) (sd : String × Dir)
    (hcl : ∀ su ∈ segs,
      (su.2.node_at_end_a = cur → su.2.node_at_end_b ∈ visited) ∧
      (su.2.node_at_end_b = cur → su.2.node_at_end_a ∈ visited))
    (hs : stepNode segs cur sd = some nxt) : nxt ∈ visited := by
  rw [stepNode] at hs
  cases hg : dictGet sd.1 segs with
  | none => rw [hg] at hs; cases sd.2 <;> simp at hs
  | some sg =>
      have hsg := hcl (sd.1, sg) (mem_of_dictGet hg)
      rw [hg] at hs
      cases hdir : sd.2 with
      | a_to_b =>
          rw [hdir] at hs
          simp only at hs
          by_cases hau : sg.node_at_end_a = cur
          · rw [if_pos hau] at hs
            exact (Option.some.inj hs) ▸ hsg.1 hau
          · rw [if_neg hau] at hs
            exact absurd hs (by simp)
      | b_to_a =>
          rw [hdir] at hs
          simp only at hs
          by_cases hbu : sg.node_at_end_b = cur
          · rw [if_pos hbu] at hs
            exact (Option.some.inj hs) ▸ hsg.2 hbu
          · rw [if_neg hbu] at hs
            exact absurd hs (by simp)

theorem followPath_closed (segs : List (String × Seg)) (visited : List String)
    (hcl : ∀ m ∈ visited, ∀ su ∈ segs,
      (su.2.node_at_end_a = m → su.2.node_at_end_b ∈ visited) ∧
      (su.2.node_at_end_b = m → su.2.node_at_end_a ∈ visited)) :
    ∀ (q : BfsPath) (cur m : String), cur ∈ visited →
      followPath segs cur q = some m → m ∈ visited := by
  intro q
  induction q with
  | nil =>
      intro cur m hc hf
      rw [followPath] at hf
      exact (Option.some.inj hf) ▸ hc
  | cons sd rest ih =>
      intro cur m hc hf
      rw [followPath] at hf
      cases hs : stepNode segs cur sd with
      | none =>
          rw [hs] at hf
          exact absurd hf (by simp)
      | some nxt =>
          rw [hs] at hf
          exact ih nxt m (stepNode_closed segs visited cur nxt sd (hcl cur hc) hs) hf

theorem bfsLoop_correct (segs : List (String × Seg))
    (hnd : (segs.map Prod.fst).Nodup) (src tgt : String) :
    ∀ (fuel : ℕ) (queue : List (String × BfsPath)) (visited : List String),
      QInv1 segs src queue visited → QInv2 queue →
      QInv3 segs queue visited → QInv4 segs src queue visited →
      (tgt ∈ queue.map Prod.fst ∨ tgt ∉ visited) → src ∈ visited →
      (∀ p, bfsLoop segs tgt fuel queue visited = some (some p) →
        ValidP segs src tgt p ∧
          ∀ q, ValidP segs src tgt q → p.length ≤ q.length) ∧
      (bfsLoop segs tgt fuel queue visited = some none →
        ∀ q, ¬ ValidP segs src tgt q) := by
  intro fuel
  induction fuel with
  | zero =>
      intro queue visited _ _ _ _ _ _
      constructor
      · intro p hres
        rw [bfsLoop] at hres
        exact absurd hres (by simp)
      · intro hres
        rw [bfsLoop] at hres
        exact absurd hres (by simp)
  | succ fuel ih =>
      intro queue visited h1 h2 h3 h4 hT hS
      cases queue with
      | nil =>
          constructor
          · intro p hres
            rw [bfsLoop] at hres
            exact absurd hres (by simp)
          · intro _ q hq
            have hTn : tgt ∉ visited := by
              rcases hT with h | h
              · exact absurd h (by simp)
              · exact h
            refine hTn (followPath_closed segs visited ?_ q src tgt hS hq)
            intro m hm su hsu
            exact h3 m hm (fun e he => absurd he (List.not_mem_nil _)) su hsu
      | cons e rest =>
          obtain ⟨cur, p0⟩ := e
          by_cases hct : cur = tgt
          · constructor
            · intro p hres
              rw [bfsLoop, if_pos hct] at hres
              have hp : p0 = p := by
                have := Option.some.inj hres
                exact Option.some.inj this
              subst hp
              obtain ⟨hv, _, hmin⟩ := h1 (cur, p0) (List.mem_cons_self _ _)
              rw [hct] at hv hmin
              exact ⟨hv, hmin⟩
            · intro hres
              rw [bfsLoop, if_pos hct] at hres
              exact absurd hres (by simp)
          · obtain ⟨hI1, hI2, hI3, hI4⟩ :=
              bfs_step_invs segs hnd src cur p0 rest visited h1 h2 h3 h4
            obtain ⟨new, hex, hndnew, hprop, -⟩ :=
              expandFold_spec cur p0 segs ([], visited)
            have hex1 : (expandNode segs cur p0 visited).1 = new := by
              rw [expandNode, hex]
              simp
            have hex2 : (expandNode segs cur p0 visited).2 =
                (new.map Prod.fst).reverse ++ visited := by
              rw [expandNode, hex]
            have hT2 : tgt ∈ (rest ++ (expandNode segs cur p0 visited).1).map
                Prod.fst ∨ tgt ∉ (expandNode segs cur p0 visited).2 := by
              rcases hT with hmem | hnot
              · left
                simp only [List.map_cons, List.mem_cons] at hmem
                rcases hmem with heq | hr
                · exact absurd heq.symm hct
                · rw [List.map_append]
                  exact List.mem_append_left _ hr
              · by_cases hn : tgt ∈ new.map Prod.fst
                · left
                  rw [List.map_append, hex1]
                  exact List.mem_append_right _ hn
                · right
                  rw [hex2]
                  intro hc
                  rcases List.mem_append.mp hc with h | h
                  · exact hn (List.mem_reverse.mp h)
                  · exact hnot h
            have hS2 : src ∈ (expandNode segs cur p0 visited).2 := by
              rw [hex2]
              exact List.mem_append_right _ hS
            have hred : bfsLoop segs tgt (fuel + 1) ((cur, p0) :: rest) visited =
                bfsLoop segs tgt fuel
                  (rest ++ (expandNode segs cur p0 visited).1)
                  (expandNode segs cur p0 visited).2 := by
              rw [bfsLoop, if_neg hct]
            have ihspec := ih (rest ++ (expandNode segs cur p0 visited).1)
              (expandNode segs cur p0 visited).2 hI1 hI2 hI3 hI4 hT2 hS2
            constructor
            · intro p hres
              rw [hred] at hres
              exact ihspec.1 p hres
            · intro hres
              rw [hred] at hres
              exact ihspec.2 hres

/-- The list of all segment-endpoint node ids. -/
def endpointList : List (String × Seg) → List String
  | [] => []
  | su :: rest =>
      su.2.node_at_end_a :: su.2.node_at_end_b :: endpointList rest

theorem endpointList_length (segs : List (String × Seg)) :
    (endpointList segs).length = 2 * segs.length := by
  induction segs with
  | nil => rfl
  | cons hd tl ih =>
      rw [endpointList]
      simp only [List.length_cons, List.length_cons, ih, List.length_cons]
      omega

theorem mem_endpointList (segs : List (String × Seg)) :
    ∀ su ∈ segs, su.2.node_at_end_a ∈ endpointList segs ∧
      su.2.node_at_end_b ∈ endpointList segs := by
  induction segs with
  | nil => intro su h; exact absurd h (List.not_mem_nil _)
  | cons hd tl ih =>
      intro su hsu
      rcases List.mem_cons.mp hsu with heq | htl
      · subst heq
        exact ⟨List.mem_cons_self _ _,
          List.mem_cons_of_mem _ (List.mem_cons_self _ _)⟩
      · have := ih su htl
        exact ⟨List.mem_cons_of_mem _ (List.mem_cons_of_mem _ this.1),
          List.mem_cons_of_mem _ (List.mem_cons_of_mem _ this.2)⟩

theorem bfsLoop_fuel (segs : List (String × Seg)) (tgt : String) :
    ∀ (fuel : ℕ) (queue : List (String × BfsPath)) (visited : List String),
      queue.length +
        ((endpointList segs).toFinset \ visited.toFinset).card < fuel →
      bfsLoop segs tgt fuel queue visited ≠ none := by
  intro fuel
  induction fuel with
  | zero => intro queue visited h; omega
  | succ fuel ih =>
      intro queue visited h
      cases queue with
      | nil =>
          rw [bfsLoop]
          simp
      | cons e rest =>
          obtain ⟨cur, p0⟩ := e
          by_cases hct : cur = tgt
          · rw [bfsLoop, if_pos hct]
            simp
          · have hred : bfsLoop segs tgt (fuel + 1) ((cur, p0) :: rest) visited =
                bfsLoop segs tgt fuel
                  (rest ++ (expandNode segs cur p0 visited).1)
                  (expandNode segs cur p0 visited).2 := by
              rw [bfsLoop, if_neg hct]
            rw [hred]
            apply ih
            obtain ⟨new, hex, hndnew, hprop, -⟩ :=
              expandFold_spec cur p0 segs ([], visited)
            have hex1 : (expandNode segs cur p0 visited).1 = new := by
              rw [expandNode, hex]
              simp
            have hex2 : (expandNode segs cur p0 visited).2 =
                (new.map Prod.fst).reverse ++ visited := by
              rw [expandNode, hex]
            rw [hex1, hex2]
            have hsub : (new.map Prod.fst).toFinset ⊆
                (endpointList segs).toFinset \ visited.toFinset := by
              intro x hx
              rw [List.mem_toFinset] at hx
              obtain ⟨e2, he2, hfst⟩ := List.mem_map.mp hx
              obtain ⟨hnot, su, hsu, hcase⟩ := hprop e2 he2
              rw [Finset.mem_sdiff, List.mem_toFinset, List.mem_toFinset]
              constructor
              · rcases hcase with ⟨ha, hb, -⟩ | ⟨ha, hb, -⟩
                · rw [← hfst, hb]
                  exact (mem_endpointList segs su hsu).2
                · rw [← hfst, hb]
                  exact (mem_endpointList segs su hsu).1
              · rw [← hfst]
                exact hnot
            have hcard : ((endpointList segs).toFinset \
                ((new.map Prod.fst).reverse ++ visited).toFinset).card =
                ((endpointList segs).toFinset \ visited.toFinset).card -
                  new.length := by
              have hu : ((new.map Prod.fst).reverse ++ visited).toFinset =
                  (new.map Prod.fst).toFinset ∪ visited.toFinset := by
                rw [List.toFinset_append, List.toFinset_reverse]
              rw [hu]
              have hsd : (endpointList segs).toFinset \
                  ((new.map Prod.fst).toFinset ∪ visited.toFinset) =
                  ((endpointList segs).toFinset \ visited.toFinset) \
                    (new.map Prod.fst).toFinset := by
                ext x
                simp only [Finset.mem_sdiff, Finset.mem_union]
                tauto
              rw [hsd, Finset.card_sdiff hsub,
                List.toFinset_card_of_nodup hndnew, List.length_map]
            have hge : new.length ≤
                ((endpointList segs).toFinset \ visited.toFinset).card := by
              have := Finset.card_le_card hsub
              rw [List.toFinset_card_of_nodup hndnew, List.length_map] at this
              exact this
            simp only [List.length_cons] at h
            simp only [List.length_append]
            omega

end KicadOverlay

namespace KicadOverlay

/-- C4: the module-level BFS path resolver is complete on connected
endpoint pairs (it returns a path whenever one exists), and every path it
returns starts at the requested from-node, ends at the requested to-node
(`followPath` from `src` along the result yields `tgt`), and has the
minimum number of segments among all paths between those endpoints. -/
theorem resolve_path_bfs_min_hop (segs : List (String × Seg))
    (hnd : (segs.map Prod.fst).Nodup) (src tgt : String) :
    ((∃ q, ValidP segs src tgt q) →
      ∃ p, resolve_path segs src tgt = some p) ∧
    (∀ p, resolve_path segs src tgt = some p →
      ValidP segs src tgt p ∧
        ∀ q, ValidP segs src tgt q → p.length ≤ q.length) := by
  have hfuel : ([(src, ([] : BfsPath))]).length +
      ((endpointList segs).toFinset \ ([src].toFinset : Finset String)).card <
      bfsFuel segs := by
    have h1 : ((endpointList segs).toFinset \
        ([src].toFinset : Finset String)).card ≤
        (endpointList segs).toFinset.card :=
      Finset.card_le_card (Finset.sdiff_subset)
    have h2 : (endpointList segs).toFinset.card ≤ (endpointList segs).length :=
      List.toFinset_card_le _
    have h3 := endpointList_length segs
    simp only [List.length_singleton, bfsFuel]
    omega
  have hinit1 : QInv1 segs src [(src, [])] [src] := by
    intro e he
    have he2 : e = (src, []) := List.mem_singleton.mp he
    subst he2
    refine ⟨rfl, List.mem_singleton.mpr rfl, ?_⟩
    intro q _
    simp
  have hinit2 : QInv2 [(src, ([] : BfsPath))] := by
    constructor
    · exact List.pairwise_singleton _ _
    · intro e he hd hhd
      have he2 : e = (src, []) := List.mem_singleton.mp he
      subst he2
      simp
  have hinit3 : QInv3 segs [(src, [])] [src] := by
    intro m hm hnot su _
    have hms : m = src := List.mem_singleton.mp hm
    exact absurd hms.symm (hnot (src, []) (List.mem_singleton.mpr rfl))
  have hinit4 : QInv4 segs src [(src, [])] [src] := by
    intro hd hhd m q hvq hlen
    have hhd2 : hd = (src, []) := by
      simp only [List.head?_cons] at hhd
      exact (Option.some.inj hhd).symm
    rw [hhd2] at hlen
    simp only [List.length_nil] at hlen
    have hq0 : q = [] := List.length_eq_zero.mp (Nat.le_zero.mp hlen)
    rw [hq0] at hvq
    rw [ValidP, followPath] at hvq
    exact List.mem_singleton.mpr (Option.some.inj hvq).symm
  have hT : tgt ∈ ([(src, ([] : BfsPath))]).map Prod.fst ∨ tgt ∉ [src] := by
    by_cases h : tgt = src
    · left
      simp [h]
    · right
      simp [h]
  have hS : src ∈ [src] := List.mem_singleton.mpr rfl
  have hmain := bfsLoop_correct segs hnd src tgt (bfsFuel segs)
    [(src, [])] [src] hinit1 hinit2 hinit3 hinit4 hT hS
  have hnn := bfsLoop_fuel segs tgt (bfsFuel segs) [(src, [])] [src] hfuel
  cases hres : bfsLoop segs tgt (bfsFuel segs) [(src, [])] [src] with
  | none => exact absurd hres hnn
  | some r =>
      have hrp : resolve_path segs src tgt = r := by
        rw [resolve_path, hres]
      cases r with
      | none =>
          constructor
          · rintro ⟨q, hq⟩
            exact absurd hq (hmain.2 hres q)
          · intro p hp
            rw [hrp] at hp
            exact absurd hp (by simp)
      | some p0 =>
          constructor
          · intro _
            exact ⟨p0, hrp⟩
          · intro p hp
            rw [hrp] at hp
            have hpp : p0 = p := Option.some.inj hp
            subst hpp
            exact hmain.1 p0 hres

/-- The two-routes example graph: a length-2 route `A -s1- M -s2- B` and a
length-4 route `A -t1- N1 -t2- N2 -t3- N3 -t4- B` between the same
endpoints. -/
def twoRouteSegs : List (String × Seg) :=
  [("t1", ⟨"A", "N1"⟩), ("t2", ⟨"N1", "N2"⟩), ("t3", ⟨"N2", "N3"⟩),
   ("t4", ⟨"N3", "B"⟩), ("s1", ⟨"A", "M"⟩), ("s2", ⟨"M", "B"⟩)]

/-- Witness for C4: on the two-routes graph the resolver returns the
length-2 route (even though the segment dict lists the length-4 route
first), the returned path runs from `A` to `B`, and its length is bounded
by the length of the 4-segment alternative. -/
theorem resolve_path_bfs_min_hop_witness :
    resolve_path twoRouteSegs "A" "B" =
      some [("s1", Dir.a_to_b), ("s2", Dir.a_to_b)] ∧
    ValidP twoRouteSegs "A" "B" [("s1", Dir.a_to_b), ("s2", Dir.a_to_b)] ∧
    ([("s1", Dir.a_to_b), ("s2", Dir.a_to_b)] : BfsPath).length ≤
      ([("t1", Dir.a_to_b), ("t2", Dir.a_to_b), ("t3", Dir.a_to_b),
        ("t4", Dir.a_to_b)] : BfsPath).length := by
  have hres : resolve_path twoRouteSegs "A" "B" =
      some [("s1", Dir.a_to_b), ("s2", Dir.a_to_b)] := by decide
  have h := (resolve_path_bfs_min_hop twoRouteSegs (by decide) "A" "B").2 _ hres
  have hv4 : ValidP twoRouteSegs "A" "B"
      [("t1", Dir.a_to_b), ("t2", Dir.a_to_b), ("t3", Dir.a_to_b),
       ("t4", Dir.a_to_b)] := by
    show followPath twoRouteSegs "A" _ = some "B"
    decide
  exact ⟨hres, h.1, h.2 _ hv4⟩

end KicadOverlay

namespace KicadOverlay

-- ======================= C1: per-connection resolution loop =======================

/-- A requested connection as consumed by the module-level path-resolution
loop: the endpoint refdes/connector names and the instance name used in
error messages. -/
structure ConnReq where
  instance_name : String
  this_net_from_device_refdes : String
  this_net_from_device_connector_name : String
  this_net_to_device_refdes : String
  this_net_to_device_connector_name : String
  deriving DecidableEq, Repr

/-- `from_node_id = f"{from_device_refdes}.{from_connector_name}"`. -/
def fromNodeId (c : ConnReq) : String :=
  c.this_net_from_device_refdes ++ "." ++ c.this_net_from_device_connector_name

/-- `to_node_id = f"{to_device_refdes}.{to_connector_name}"`. -/
def toNodeId (c : ConnReq) : String :=
  c.this_net_to_device_refdes ++ "." ++ c.this_net_to_device_connector_name

/-- The `ValueError` message raised when the from-node is missing. -/
def fromNodeMissingMsg (c : ConnReq) : String :=
  "From node '" ++ fromNodeId c ++ "' not found in graph for " ++ c.instance_name

/-- The `ValueError` message raised when the to-node is missing. -/
def toNodeMissingMsg (c : ConnReq) : String :=
  "To node '" ++ toNodeId c ++ "' not found in graph for " ++ c.instance_name

/-- The `ValueError` message raised when the BFS queue empties. -/
def noPathMsg (c : ConnReq) : String :=
  "No path found for " ++ c.instance_name ++ ": " ++ fromNodeId c ++ " → " ++
    toNodeId c

/-- The fields stored into the instance on a successful resolution. -/
structure RoutedConn where
  conn : ConnReq
  graph_path_segments : List String
  graph_path_directions : List Dir
  deriving DecidableEq, Repr

/-- One iteration of the module-level loop (lines 860-930): check that both
endpoint node ids exist in the graph, run the BFS, and either store the
path or raise `ValueError` (modelled as `Except.error` carrying the raised
message). -/
def resolveConn (g : Graph) (c : ConnReq) : Except String RoutedConn :=
  if dictGet (fromNodeId c) g.nodes = none then .error (fromNodeMissingMsg c)
  else if dictGet (toNodeId c) g.nodes = none then .error (toNodeMissingMsg c)
  else
    match resolve_path g.segments (fromNodeId c) (toNodeId c) with
    | some p => .ok ⟨c, p.map Prod.fst, p.map Prod.snd⟩
    | none => .error (noPathMsg c)

/-- The whole loop over the requested connections: an uncaught `raise`
aborts the run at the first failing connection. -/
def resolveAllConns (g : Graph) : List ConnReq → Except String (List RoutedConn)
  | [] => .ok []
  | c :: rest =>
      match resolveConn g c with
      | .error e => .error e
      | .ok r =>
          match resolveAllConns g rest with
          | .error e => .error e
          | .ok rs => .ok (r :: rs)

/-- The graph of the C1 counterexample: nodes `A.p` and `B.p` joined by one
wire. -/
def c1graph : Graph :=
  { nodes := [("A.p", (0, 0)), ("B.p", (1, 0))],
    segments := [("w1", ⟨"A.p", "B.p"⟩)] }

/-- A connection whose from-endpoint `X.p` is absent from the graph. -/
def c1bad : ConnReq := ⟨"net-bad", "X", "p", "B", "p"⟩

/-- A connection that resolves (path `A.p → B.p` over `w1`). -/
def c1good : ConnReq := ⟨"net-good", "A", "p", "B", "p"⟩

/-- C1 counterexample: a run containing a bad connection followed by a
resolvable one aborts with the bad connection's error (the uncaught
`ValueError`), producing no result for the resolvable connection — the run
does not continue past a single bad connection. -/
theorem resolveAllConns_abort_counterexample :
    resolveAllConns c1graph [c1bad, c1good] =
      .error "From node 'X.p' not found in graph for net-bad" ∧
    resolveConn c1graph c1good =
      .ok ⟨c1good, ["w1"], [Dir.a_to_b]⟩ := by
  constructor
  · rfl
  · rfl

/-- C1 amended: a per-connection failure (missing endpoint node or no path)
is reported with a message naming the offending connection, but the raised
`ValueError` aborts the whole run at the first failing connection: the
remaining connections are not processed, however many of the earlier ones
resolved. -/
theorem resolveAllConns_first_error_aborts (g : Graph)
    (pre post : List ConnReq) (bad : ConnReq) (e : String)
    (hpre : ∀ c ∈ pre, ∃ r, resolveConn g c = .ok r)
    (hbad : resolveConn g bad = .error e) :
    resolveAllConns g (pre ++ bad :: post) = .error e ∧
    (e = fromNodeMissingMsg bad ∨ e = toNodeMissingMsg bad ∨
      e = noPathMsg bad) := by
  constructor
  · induction pre with
    | nil =>
        rw [List.nil_append, resolveAllConns, hbad]
    | cons c cs ih =>
        obtain ⟨r, hr⟩ := hpre c (List.mem_cons_self _ _)
        rw [List.cons_append, resolveAllConns, hr]
        rw [ih (fun c2 hc2 => hpre c2 (List.mem_cons_of_mem _ hc2))]
  · rw [resolveConn] at hbad
    by_cases h1 : dictGet (fromNodeId bad) g.nodes = none
    · rw [if_pos h1] at hbad
      exact Or.inl (Except.error.inj hbad).symm
    · rw [if_neg h1] at hbad
      by_cases h2 : dictGet (toNodeId bad) g.nodes = none
      · rw [if_pos h2] at hbad
        exact Or.inr (Or.inl (Except.error.inj hbad).symm)
      · rw [if_neg h2] at hbad
        cases hr : resolve_path g.segments (fromNodeId bad) (toNodeId bad) with
        | some p =>
            rw [hr] at hbad
            exact absurd hbad (by simp)
        | none =>
            rw [hr] at hbad
            exact Or.inr (Or.inr (Except.error.inj hbad).symm)

/-- Witness for the amended C1: with one resolvable connection before the
bad one, the run still aborts with the bad connection's message. -/
theorem resolveAllConns_first_error_aborts_witness :
    resolveAllConns c1graph [c1good, c1bad] =
      .error (fromNodeMissingMsg c1bad) ∧
    (fromNodeMissingMsg c1bad = fromNodeMissingMsg c1bad ∨
      fromNodeMissingMsg c1bad = toNodeMissingMsg c1bad ∨
      fromNodeMissingMsg c1bad = noPathMsg c1bad) :=
  resolveAllConns_first_error_aborts c1graph [c1good] [] c1bad
    (fromNodeMissingMsg c1bad)
    (fun c hc => by
      have hcg : c = c1good := List.mem_singleton.mp hc
      subst hcg
      exact ⟨⟨c1good, ["w1"], [Dir.a_to_b]⟩, rfl⟩)
    rfl

end KicadOverlay

namespace KicadOverlay

-- ======================= C3: chain assembly tangents =======================

/-- The forward tangent of a segment (lines 1161-1169): coordinate deltas
from node A to node B converted to millimetres, then
`tangent_ab = -degrees(atan2(dy, dx))`; `atan2D` stands for
`math.degrees ∘ math.atan2`, whose range is `(-180, 180]`. -/
def tangent_ab (atan2D : ℚ → ℚ → ℚ) (a b : ℚ × ℚ) : ℚ :=
  -(atan2D ((b.2 - a.2) * (254/10)) ((b.1 - a.1) * (254/10)))

/-- The backward tangent (lines 1198-1200):
`tangent_ba = tangent_ab + 180`, reduced by 360 when above 360. -/
def tangent_ba (atan2D : ℚ → ℚ → ℚ) (a b : ℚ × ℚ) : ℚ :=
  if tangent_ab atan2D a b + 180 > 360 then tangent_ab atan2D a b + 180 - 360
  else tangent_ab atan2D a b + 180

/-- The nested `points_to_pass_through` dict:
node id → segment uuid → instance name → point. -/
abbrev BundleMap :=
  List (String × List (String × List (String × ℚ × ℚ)))

/-- `points_to_pass_through[node][seg][inst]`, fallible. -/
def getBundlePoint (pts : BundleMap) (node seg inst : String) :
    Option (ℚ × ℚ) :=
  (dictGet node pts).bind fun m1 => (dictGet seg m1).bind fun m2 =>
    dictGet inst m2

/-- A point of a connection's chain: coordinates and label tangent. -/
structure ChainPoint where
  x : ℚ
  y : ℚ
  tangent : ℚ
  deriving DecidableEq, Repr

/-- The two points a `(segment, direction)` pair contributes to the chain:
entry point then exit point, each tagged with the direction's tangent; a
missing bundle point is reported and skipped. -/
def segmentPoints (atan2D : ℚ → ℚ → ℚ) (ca cb : ℚ × ℚ)
    (pA pB : Option (ℚ × ℚ)) : Dir → List ChainPoint
  | .a_to_b =>
      (match pA with
       | some p => [⟨p.1, p.2, tangent_ab atan2D ca cb⟩]
       | none => []) ++
      (match pB with
       | some p => [⟨p.1, p.2, tangent_ab atan2D ca cb⟩]
       | none => [])
  | .b_to_a =>
      (match pB with
       | some p => [⟨p.1, p.2, tangent_ba atan2D ca cb⟩]
       | none => []) ++
      (match pA with
       | some p => [⟨p.1, p.2, tangent_ba atan2D ca cb⟩]
       | none => [])

/-- The chain-assembly walk (lines 1150-1226): for each `(segment,
direction)` of the resolved path, look up the segment and its node
coordinates (a missing graph key raises `KeyError`), compute the tangent,
and append the entry/exit bundle points that exist. -/
def assembleChain (atan2D : ℚ → ℚ → ℚ) (g : Graph) (pts : BundleMap)
    (inst_name : String) :
    List (String × Dir) → Except String (List ChainPoint)
  | [] => .ok []
  | (seg_uuid, dir) :: rest =>
      match dictGet seg_uuid g.segments with
      | none => .error ("KeyError: " ++ seg_uuid)
      | some sg =>
          match dictGet sg.node_at_end_a g.nodes,
              dictGet sg.node_at_end_b g.nodes with
          | some ca, some cb =>
              (assembleChain atan2D g pts inst_name rest).map fun tail =>
                segmentPoints atan2D ca cb
                  (getBundlePoint pts sg.node_at_end_a seg_uuid inst_name)
                  (getBundlePoint pts sg.node_at_end_b seg_uuid inst_name)
                  dir ++ tail
          | none, _ => .error ("KeyError: " ++ sg.node_at_end_a)
          | _, none => .error ("KeyError: " ++ sg.node_at_end_b)

theorem segmentPoints_tangent (atan2D : ℚ → ℚ → ℚ) (ca cb : ℚ × ℚ)
    (pA pB : Option (ℚ × ℚ)) (dir : Dir) :
    ∀ cp ∈ segmentPoints atan2D ca cb pA pB dir,
      (dir = Dir.a_to_b ∧ cp.tangent = tangent_ab atan2D ca cb) ∨
      (dir = Dir.b_to_a ∧ cp.tangent = tangent_ba atan2D ca cb) := by
  intro cp hcp
  cases dir with
  | a_to_b =>
      left
      refine ⟨rfl, ?_⟩
      cases pA with
      | none =>
          cases pB with
          | none => exact absurd hcp (List.not_mem_nil _)
          | some q =>
              have h2 : cp ∈
                  [(⟨q.1, q.2, tangent_ab atan2D ca cb⟩ : ChainPoint)] := hcp
              rw [List.mem_singleton.mp h2]
      | some p =>
          cases pB with
          | none =>
              have h2 : cp ∈
                  [(⟨p.1, p.2, tangent_ab atan2D ca cb⟩ : ChainPoint)] := hcp
              rw [List.mem_singleton.mp h2]
          | some q =>
              have h2 : cp ∈
                  [(⟨p.1, p.2, tangent_ab atan2D ca cb⟩ : ChainPoint),
                   ⟨q.1, q.2, tangent_ab atan2D ca cb⟩] := hcp
              rcases List.mem_cons.mp h2 with h | h
              · rw [h]
              · rw [List.mem_singleton.mp h]
  | b_to_a =>
      right
      refine ⟨rfl, ?_⟩
      cases pB with
      | none =>
          cases pA with
          | none => exact absurd hcp (List.not_mem_nil _)
          | some q =>
              have h2 : cp ∈
                  [(⟨q.1, q.2, tangent_ba atan2D ca cb⟩ : ChainPoint)] := hcp
              rw [List.mem_singleton.mp h2]
      | some p =>
          cases pA with
          | none =>
              have h2 : cp ∈
                  [(⟨p.1, p.2, tangent_ba atan2D ca cb⟩ : ChainPoint)] := hcp
              rw [List.mem_singleton.mp h2]
          | some q =>
              have h2 : cp ∈
                  [(⟨p.1, p.2, tangent_ba atan2D ca cb⟩ : ChainPoint),
                   ⟨q.1, q.2, tangent_ba atan2D ca cb⟩] := hcp
              rcases List.mem_cons.mp h2 with h | h
              · rw [h]
              · rw [List.mem_singleton.mp h]

theorem assembleChain_cons (atan2D : ℚ → ℚ → ℚ) (g : Graph)
    (pts : BundleMap) (inst : String) (seg_uuid : String) (dir : Dir)
    (rest : List (String × Dir)) (sg : Seg) (ca cb : ℚ × ℚ)
    (hseg : dictGet seg_uuid g.segments = some sg)
    (hca : dictGet sg.node_at_end_a g.nodes = some ca)
    (hcb : dictGet sg.node_at_end_b g.nodes = some cb) :
    assembleChain atan2D g pts inst ((seg_uuid, dir) :: rest) =
      (assembleChain atan2D g pts inst rest).map fun tail =>
        segmentPoints atan2D ca cb
          (getBundlePoint pts sg.node_at_end_a seg_uuid inst)
          (getBundlePoint pts sg.node_at_end_b seg_uuid inst) dir ++ tail := by
  rw [assembleChain]
  simp only [hseg, hca, hcb]

/-- C3 amended: the backward (`b_to_a`) tangent equals the forward tangent
plus exactly 180 degrees and lies in `[0, 360)`; the forward tangent,
however, is `-degrees(atan2(dy, dx))` and lies in `[-180, 180)` — it is
stored as-is, without renormalisation into `[0, 360)`.  Every tangent
stored in an assembled chain is one of these two values for its segment's
node coordinates. -/
theorem tangent_flip_relation (atan2D : ℚ → ℚ → ℚ)
    (hrange : ∀ dy dx, -180 < atan2D dy dx ∧ atan2D dy dx ≤ 180) :
    (∀ a b : ℚ × ℚ,
      tangent_ba atan2D a b = tangent_ab atan2D a b + 180 ∧
      0 ≤ tangent_ba atan2D a b ∧ tangent_ba atan2D a b < 360 ∧
      -180 ≤ tangent_ab atan2D a b ∧ tangent_ab atan2D a b < 180) ∧
    (∀ (g : Graph) (pts : BundleMap) (inst : String)
        (path : List (String × Dir)) (chain : List ChainPoint),
      assembleChain atan2D g pts inst path = .ok chain →
      ∀ cp ∈ chain, ∃ a b : ℚ × ℚ,
        cp.tangent = tangent_ab atan2D a b ∨
        cp.tangent = tangent_ba atan2D a b) := by
  have habr : ∀ a b : ℚ × ℚ,
      -180 ≤ tangent_ab atan2D a b ∧ tangent_ab atan2D a b < 180 := by
    intro a b
    obtain ⟨hlo, hhi⟩ := hrange ((b.2 - a.2) * (254/10)) ((b.1 - a.1) * (254/10))
    rw [tangent_ab]
    constructor <;> linarith
  constructor
  · intro a b
    obtain ⟨hlo, hhi⟩ := habr a b
    have hno : ¬ tangent_ab atan2D a b + 180 > 360 := by linarith
    rw [tangent_ba, if_neg hno]
    refine ⟨rfl, by linarith, by linarith, hlo, hhi⟩
  · intro g pts inst path
    induction path with
    | nil =>
        intro chain hres cp hcp
        rw [assembleChain] at hres
        have hc : chain = [] := (Except.ok.inj hres).symm
        rw [hc] at hcp
        exact absurd hcp (List.not_mem_nil _)
    | cons sd rest ih =>
        intro chain hres cp hcp
        obtain ⟨seg_uuid, dir⟩ := sd
        rw [assembleChain] at hres
        cases hseg : dictGet seg_uuid g.segments with
        | none => simp only [hseg] at hres; exact absurd hres (by simp)
        | some sg =>
            simp only [hseg] at hres
            cases hca : dictGet sg.node_at_end_a g.nodes with
            | none => simp only [hca] at hres; exact absurd hres (by simp)
            | some ca =>
                cases hcb : dictGet sg.node_at_end_b g.nodes with
                | none =>
                    simp only [hca, hcb] at hres
                    exact absurd hres (by simp)
                | some cb =>
                    simp only [hca, hcb] at hres
                    cases htail : assembleChain atan2D g pts inst rest with
                    | error e =>
                        rw [htail] at hres
                        exact absurd hres (by simp [Except.map])
                    | ok tail =>
                        rw [htail] at hres
                        have hchain : chain =
                            segmentPoints atan2D ca cb
                              (getBundlePoint pts sg.node_at_end_a seg_uuid inst)
                              (getBundlePoint pts sg.node_at_end_b seg_uuid inst)
                              dir ++ tail := by
                          have := Except.ok.inj hres
                          exact this.symm
                        rw [hchain] at hcp
                        rcases List.mem_append.mp hcp with h | h
                        · rcases segmentPoints_tangent atan2D ca cb _ _ dir cp h with
                            ⟨-, ht⟩ | ⟨-, ht⟩
                          · exact ⟨ca, cb, Or.inl ht⟩
                          · exact ⟨ca, cb, Or.inr ht⟩
                        · exact ih tail htail cp h

/-- Exact values of `math.degrees(math.atan2(dy, dx))` on axis-aligned
arguments, the only arguments occurring in the concrete statements below
(an off-axis argument gets an arbitrary in-range stand-in, since the true
value is irrational). -/
def atan2DegAx (dy dx : ℚ) : ℚ :=
  if dy = 0 ∧ 0 < dx then 0
  else if dy = 0 ∧ dx < 0 then 180
  else if dx = 0 ∧ 0 < dy then 90
  else if dx = 0 ∧ dy < 0 then -90
  else if dx = 0 ∧ dy = 0 then 0
  else 45

theorem atan2DegAx_range : ∀ dy dx, -180 < atan2DegAx dy dx ∧
    atan2DegAx dy dx ≤ 180 := by
  intro dy dx
  unfold atan2DegAx
  split_ifs <;> norm_num

/-- Witness for the amended C3 at the vertical segment from `(0,0)` to
`(0,1)`: the flip relation and the backward normalisation hold there. -/
theorem tangent_flip_relation_witness :
    tangent_ba atan2DegAx (0, 0) (0, 1) =
      tangent_ab atan2DegAx (0, 0) (0, 1) + 180 ∧
    0 ≤ tangent_ba atan2DegAx (0, 0) (0, 1) ∧
    tangent_ba atan2DegAx (0, 0) (0, 1) < 360 := by
  have h := (tangent_flip_relation atan2DegAx atan2DegAx_range).1 (0, 0) (0, 1)
  exact ⟨h.1, h.2.1, h.2.2.1⟩

/-- C3 counterexample: traversing the vertical segment `A (0,0) → B (0,1)`
forward stores tangent `-degrees(atan2(25.4, 0)) = -90`, which is not in
`[0, 360)`: stored tangents are not all normalised into that interval. -/
theorem stored_tangent_not_normalized_counterexample :
    assembleChain atan2DegAx
      ⟨[("A", (0, 0)), ("B", (0, 1))], [("w", ⟨"A", "B"⟩)]⟩
      [("A", [("w", [("net1", (0, 0))])]), ("B", [("w", [("net1", (0, 1))])])]
      "net1" [("w", Dir.a_to_b)] =
      .ok [⟨0, 0, -90⟩, ⟨0, 1, -90⟩] ∧
    ¬ (0 ≤ (-90 : ℚ) ∧ (-90 : ℚ) < 360) := by
  constructor
  · have hseg : dictGet "w"
        (⟨[("A", (0, 0)), ("B", (0, 1))], [("w", ⟨"A", "B"⟩)]⟩ : Graph).segments =
        some ⟨"A", "B"⟩ := rfl
    have hca : dictGet "A"
        (⟨[("A", (0, 0)), ("B", (0, 1))], [("w", ⟨"A", "B"⟩)]⟩ : Graph).nodes =
        some ((0 : ℚ), (0 : ℚ)) := rfl
    have hcb : dictGet "B"
        (⟨[("A", (0, 0)), ("B", (0, 1))], [("w", ⟨"A", "B"⟩)]⟩ : Graph).nodes =
        some ((0 : ℚ), (1 : ℚ)) := rfl
    rw [assembleChain_cons atan2DegAx _ _ "net1" "w" Dir.a_to_b [] ⟨"A", "B"⟩
      (0, 0) (0, 1) hseg hca hcb]
    rw [assembleChain]
    have hpA : getBundlePoint
        [("A", [("w", [("net1", ((0 : ℚ), (0 : ℚ)))])]),
         ("B", [("w", [("net1", ((0 : ℚ), (1 : ℚ)))])])] "A" "w" "net1" =
        some (0, 0) := rfl
    have hpB : getBundlePoint
        [("A", [("w", [("net1", ((0 : ℚ), (0 : ℚ)))])]),
         ("B", [("w", [("net1", ((0 : ℚ), (1 : ℚ)))])])] "B" "w" "net1" =
        some (0, 1) := rfl
    rw [hpA, hpB]
    have hated : tangent_ab atan2DegAx ((0 : ℚ), (0 : ℚ)) ((0 : ℚ), (1 : ℚ)) =
        -90 := by
      rw [tangent_ab, atan2DegAx]
      norm_num
    show Except.ok (segmentPoints atan2DegAx (0, 0) (0, 1)
        (some (0, 0)) (some (0, 1)) Dir.a_to_b ++ []) = _
    show Except.ok
        ([(⟨0, 0, tangent_ab atan2DegAx (0, 0) (0, 1)⟩ : ChainPoint),
          ⟨0, 1, tangent_ab atan2DegAx (0, 0) (0, 1)⟩] ++ []) = _
    rw [hated]
    rfl
  · norm_num

end KicadOverlay

namespace KicadOverlay

-- ======================= C5 and C7: bundle geometry engine =======================

/-- `segment_spacing_inches = 0.05`. -/
def segment_spacing_inches : ℚ := 5/100

/-- An instance after path resolution, as consumed by the bundle engine. -/
structure RoutedInst where
  instance_name : String
  parent_instance : Option String
  graph_path_segments : List String
  graph_path_directions : List Dir
  deriving DecidableEq, Repr

/-- `node_radius_inches = math.pow(components_in_node, 0.7) *
segment_spacing_inches`; `pow07` stands for `fun n => math.pow(n, 0.7)`. -/
def node_radius_inches (pow07 : ℕ → ℚ) (components_in_node : ℕ) : ℚ :=
  pow07 components_in_node * segment_spacing_inches

/-- `center_offset_from_count_inches =
(idx - num_seg_components / 2 - 0.5) * segment_spacing_inches`
(float division in the source). -/
def center_offset_inches (num_seg_components idx : ℕ) : ℚ :=
  ((idx : ℚ) - (num_seg_components : ℚ) / 2 - 1/2) * segment_spacing_inches

/-- The mm-scale angle from one node toward another
(`degrees(atan2(dy, dx))`, not negated here). -/
def angleToward (atan2D : ℚ → ℚ → ℚ) (from2 to2 : ℚ × ℚ) : ℚ :=
  atan2D ((to2.2 - from2.2) * (254/10)) ((to2.1 - from2.1) * (254/10))

/-- The per-node segment scan (lines 956-980): for each segment incident to
the node, record its outward angle toward the far endpoint, its uuid, and
whether the node is the segment's B end (`flip_sort`); a missing far-node
coordinate is a `KeyError`. -/
def nodeSegmentScan (atan2D : ℚ → ℚ → ℚ) (g : Graph) (node_id : String)
    (nc : ℚ × ℚ) :
    List (String × Seg) → Except String (List (ℚ × String × Bool))
  | [] => .ok []
  | su :: rest =>
      if su.2.node_at_end_a = node_id then
        match dictGet su.2.node_at_end_b g.nodes with
        | none => .error ("KeyError: " ++ su.2.node_at_end_b)
        | some cb =>
            (nodeSegmentScan atan2D g node_id nc rest).map fun tail =>
              (angleToward atan2D nc cb, su.1, false) :: tail
      else if su.2.node_at_end_b = node_id then
        match dictGet su.2.node_at_end_a g.nodes with
        | none => .error ("KeyError: " ++ su.2.node_at_end_a)
        | some ca =>
            (nodeSegmentScan atan2D g node_id nc rest).map fun tail =>
              (angleToward atan2D nc ca, su.1, true) :: tail
      else nodeSegmentScan atan2D g node_id nc rest

/-- The component count at a node (lines 983-997): distinct
`parent_instance or instance_name` keys over the instances whose path uses
one of the node's segments. -/
def componentsInNode (instances : List RoutedInst)
    (node_segments : List String) : ℕ :=
  (instances.foldl
    (fun (acc : List String × ℕ) inst =>
      let parent_name := inst.parent_instance.getD inst.instance_name
      if parent_name ∈ acc.1 then acc
      else if inst.graph_path_segments.any (fun s2 => s2 ∈ node_segments) then
        (parent_name :: acc.1, acc.2 + 1)
      else acc)
    ([], 0)).2

/-- `instances_using_segment`: the names of the instances whose resolved
path uses the segment (lines 1016-1019). -/
def instances_using_segment (instances : List RoutedInst)
    (seg_uuid : String) : List String :=
  (instances.filter
    (fun i => seg_uuid ∈ i.graph_path_segments)).map (·.instance_name)

/-- Sort the users alphabetically (`list.sort()`), reversing the order when
the segment is traversed backward relative to this node (lines
1024-1029). -/
def sorted_instances_for_segment (instances : List RoutedInst)
    (seg_uuid : String) (flip : Bool) : List String :=
  let l := (instances_using_segment instances seg_uuid).insertionSort (· ≤ ·)
  if flip then l.reverse else l

/-- One bundle point (lines 1034-1072): symmetric linear offset, the
arcsine angular offset, placement on the node's perimeter circle, and the
final vertical flip of the stored y. -/
def bundle_point (cosD sinD asinD : ℚ → ℚ) (pow07 : ℕ → ℚ)
    (nc : ℚ × ℚ) (seg_angle : ℚ) (n_node n_seg idx : ℕ) : ℚ × ℚ :=
  let x_node_mm := nc.1 * (254/10)
  let y_node_mm := nc.2 * (254/10)
  let node_radius_mm := node_radius_inches pow07 n_node * (254/10)
  let center_offset_mm := center_offset_inches n_seg idx * (254/10)
  let delta := delta_angle_from_count asinD center_offset_mm node_radius_mm
  let final_angle := seg_angle + delta
  (x_node_mm + node_radius_mm * cosD final_angle,
   -(y_node_mm + node_radius_mm * sinD final_angle))

/-- The per-segment point assignment at a node: the sorted (and possibly
reversed) users, enumerated from 1. -/
def segmentBundleEntries (cosD sinD asinD : ℚ → ℚ) (pow07 : ℕ → ℚ)
    (instances : List RoutedInst) (nc : ℚ × ℚ) (n_node : ℕ)
    (seg_angle : ℚ) (seg_uuid : String) (flip : Bool) :
    List (String × ℚ × ℚ) :=
  let users := sorted_instances_for_segment instances seg_uuid flip
  users.enum.map fun ie =>
    (ie.2, bundle_point cosD sinD asinD pow07 nc seg_angle n_node
      users.length (ie.1 + 1))

/-- The bundle geometry engine (lines 940-1073): walk the node dict; skip
nodes traversed by zero components; otherwise assign, per incident segment
and per using connection, a point on the node's perimeter circle.  The
nested output dict mirrors `points_to_pass_through` (keys appear only when
a point was stored). -/
def computeBundlePoints (atan2D : ℚ → ℚ → ℚ) (cosD sinD asinD : ℚ → ℚ)
    (pow07 : ℕ → ℚ) (g : Graph) (instances : List RoutedInst) :
    List (String × ℚ × ℚ) → Except String BundleMap
  | [] => .ok []
  | (node_id, nc) :: rest =>
      match nodeSegmentScan atan2D g node_id nc g.segments with
      | .error e => .error e
      | .ok angs =>
          let node_segments := angs.map fun t => t.2.1
          let n_node := componentsInNode instances node_segments
          let nodeEntry : List (String × List (String × ℚ × ℚ)) :=
            if n_node = 0 then []
            else
              (angs.map fun t =>
                (t.2.1, segmentBundleEntries cosD sinD asinD pow07 instances
                  nc n_node t.1 t.2.1 t.2.2)).filter fun e2 => ¬ e2.2 = []
          (computeBundlePoints atan2D cosD sinD asinD pow07 g instances
            rest).map fun tail =>
              if nodeEntry = [] then tail else (node_id, nodeEntry) :: tail

/-- The whole engine over the graph's node dict. -/
def bundleEngine (atan2D : ℚ → ℚ → ℚ) (cosD sinD asinD : ℚ → ℚ)
    (pow07 : ℕ → ℚ) (g : Graph) (instances : List RoutedInst) :
    Except String BundleMap :=
  computeBundlePoints atan2D cosD sinD asinD pow07 g instances g.nodes

/-- C5: the bundle geometry computation is deterministic — two runs over
the same graph and the same resolved paths produce identical results, and
in particular identical coordinates for every
`(node, segment, connection)` triple. -/
theorem bundleEngine_deterministic (atan2D : ℚ → ℚ → ℚ)
    (cosD sinD asinD : ℚ → ℚ) (pow07 : ℕ → ℚ) (g : Graph)
    (instances : List RoutedInst) :
    bundleEngine atan2D cosD sinD asinD pow07 g instances =
      bundleEngine atan2D cosD sinD asinD pow07 g instances ∧
    ∀ r1 r2,
      bundleEngine atan2D cosD sinD asinD pow07 g instances = .ok r1 →
      bundleEngine atan2D cosD sinD asinD pow07 g instances = .ok r2 →
      ∀ node seg inst,
        getBundlePoint r1 node seg inst = getBundlePoint r2 node seg inst := by
  refine ⟨rfl, ?_⟩
  intro r1 r2 h1 h2 node seg inst
  rw [h1] at h2
  rw [Except.ok.inj h2]

/-- Witness for C5 on a concrete one-node graph (no ℚ computation is
needed: a graph with no components stores no points). -/
theorem bundleEngine_deterministic_witness :
    bundleEngine (fun _ _ => 0) (fun _ => 1) (fun _ => 0) (fun _ => 0)
      (fun _ => 1) ⟨[("A", (0, 0))], []⟩ [] = .ok [] ∧
    getBundlePoint [] "A" "w" "c" = getBundlePoint [] "A" "w" "c" := by
  constructor
  · rfl
  · exact (bundleEngine_deterministic (fun _ _ => 0) (fun _ => 1) (fun _ => 0)
      (fun _ => 0) (fun _ => 1) ⟨[("A", (0, 0))], []⟩ []).2 [] [] rfl rfl
      "A" "w" "c"

end KicadOverlay

namespace KicadOverlay

theorem delta_angle_from_count_odd (asinD : ℚ → ℚ)
    (hodd : ∀ x, asinD (-x) = -asinD x) (off r : ℚ) :
    delta_angle_from_count asinD (-off) r =
      -(delta_angle_from_count asinD off r) := by
  by_cases hr : r = 0
  · simp [delta_angle_from_count, pyDiv, hr, Except.bind]
  · by_cases hgt : 1 < |off / r|
    · have hgt2 : 1 < |(-off) / r| := by
        rw [neg_div, abs_neg]
        exact hgt
      simp [delta_angle_from_count, pyDiv, hr, pyAsinDeg, Except.bind, hgt, hgt2]
    · have hgt2 : ¬ 1 < |(-off) / r| := by
        rw [neg_div, abs_neg]
        exact hgt
      simp only [delta_angle_from_count, pyDiv, hr, pyAsinDeg, Except.bind,
        hgt, hgt2, if_neg, if_false, ite_false]
      simp [hr, hgt, hgt2, neg_div, hodd]

theorem center_offset_antisym (n idx : ℕ) (h1 : 1 ≤ idx) (h2 : idx ≤ n) :
    center_offset_inches n idx = -(center_offset_inches n (n + 1 - idx)) := by
  rw [center_offset_inches, center_offset_inches]
  have hle : idx ≤ n + 1 := by omega
  have hc : ((n + 1 - idx : ℕ) : ℚ) = (n : ℚ) + 1 - (idx : ℚ) := by
    rw [Nat.cast_sub hle]
    push_cast
    ring
  rw [hc]
  ring

/-- C7: the bundle perimeter radius at a node traversed by `n ≥ 1`
components is `pow(n, 0.7)` times the fixed per-connection spacing
constant; the connections using a segment at the node are ordered by
connection name ascending, with the order reversed when the segment is
traversed backward relative to the node; and the linear offsets (hence,
by oddness of the arcsine, the angular offsets) are symmetric around the
segment's outward angle: position `idx` and position `n + 1 - idx` get
opposite offsets. -/
theorem bundle_radius_sort_symmetry (asinD : ℚ → ℚ) (pow07 : ℕ → ℚ)
    (hodd : ∀ x, asinD (-x) = -asinD x) :
    (∀ n : ℕ, 1 ≤ n →
      node_radius_inches pow07 n = pow07 n * segment_spacing_inches) ∧
    (∀ (instances : List RoutedInst) (seg_uuid : String),
      (sorted_instances_for_segment instances seg_uuid false).Sorted (· ≤ ·) ∧
      sorted_instances_for_segment instances seg_uuid true =
        (sorted_instances_for_segment instances seg_uuid false).reverse ∧
      (sorted_instances_for_segment instances seg_uuid false).Perm
        (instances_using_segment instances seg_uuid)) ∧
    (∀ (n idx : ℕ) (r : ℚ), 1 ≤ idx → idx ≤ n →
      center_offset_inches n idx = -(center_offset_inches n (n + 1 - idx)) ∧
      delta_angle_from_count asinD
          (center_offset_inches n (n + 1 - idx) * (254/10)) r =
        -(delta_angle_from_count asinD
            (center_offset_inches n idx * (254/10)) r)) := by
  refine ⟨?_, ?_, ?_⟩
  · intro n _
    rfl
  · intro instances seg_uuid
    exact ⟨List.sorted_insertionSort _ _, rfl, List.perm_insertionSort _ _⟩
  · intro n idx r h1 h2
    have hco := center_offset_antisym n idx h1 h2
    refine ⟨hco, ?_⟩
    have h3 : delta_angle_from_count asinD
        (center_offset_inches n idx * (254/10)) r =
        -(delta_angle_from_count asinD
          (center_offset_inches n (n + 1 - idx) * (254/10)) r) := by
      rw [hco, show (-(center_offset_inches n (n + 1 - idx)) * (254/10 : ℚ)) =
        -(center_offset_inches n (n + 1 - idx) * (254/10)) by ring]
      exact delta_angle_from_count_odd asinD hodd _ r
    rw [h3, neg_neg]

end KicadOverlay

namespace KicadOverlay

/-- Three connections sharing one segment, in scrambled declaration
order. -/
def c7insts : List RoutedInst :=
  [⟨"net-c", none, ["w"], [Dir.a_to_b]⟩,
   ⟨"net-a", none, ["w"], [Dir.a_to_b]⟩,
   ⟨"net-b", none, ["w"], [Dir.a_to_b]⟩]

/-- Witness for C7: three connections on one segment get radius
`pow07 3 × 0.05`, are ordered `net-a, net-b, net-c` (reversed on a flipped
segment), and the first and last of the three linear offsets are
opposite. -/
theorem bundle_radius_sort_symmetry_witness :
    node_radius_inches (fun n => (n : ℚ)) 3 = 3 * (5/100) ∧
    (sorted_instances_for_segment c7insts "w" false).Sorted (· ≤ ·) ∧
    sorted_instances_for_segment c7insts "w" true =
      (sorted_instances_for_segment c7insts "w" false).reverse ∧
    (sorted_instances_for_segment c7insts "w" false).Perm
      ["net-c", "net-a", "net-b"] ∧
    center_offset_inches 3 1 = -(center_offset_inches 3 3) := by
  have h := bundle_radius_sort_symmetry (fun x => x) (fun n => (n : ℚ))
    (fun x => by ring)
  refine ⟨?_, (h.2.1 c7insts "w").1, (h.2.1 c7insts "w").2.1, ?_, ?_⟩
  · rw [h.1 3 (by norm_num)]
    norm_num [segment_spacing_inches]
  · have hperm := (h.2.1 c7insts "w").2.2
    have husers : instances_using_segment c7insts "w" =
        ["net-c", "net-a", "net-b"] := by decide
    rw [husers] at hperm
    exact hperm
  · have h3 := (h.2.2 3 1 0 (by norm_num) (by norm_num)).1
    simpa using h3

end KicadOverlay
